import Mathlib

/-!
# Verification of the meshmaker maze engine

Shallow embedding of `src/meshmaker/maze_generator.py` and
`src/meshmaker/cube_grid.py`, together with proofs of the specification's
claims about them.

Conventions of the embedding:

* Python `int` coordinates become `ℤ`; a grid coordinate is a pair `(x, y)`.
* The internal maze field `self._maze` stores `True` for wall and `False`
  for path.  We represent it by the list of its *open* (path) cells,
  queried only through membership: the reset to all-walls is `[]`, and
  `self._maze[y][x] = False` prepends `(x, y)`.  The carving code only
  ever writes `False` after the reset and only reads cells through
  membership, so this representation is observationally exact.
* `random.shuffle(directions)` is modelled by an ambient stream
  `perms : ℕ → List (ℤ × ℤ)` of shuffle results, consumed in call order
  (the counter `k` below); a seeded run of CPython's `random` module
  yields one such stream, so quantifying over all streams whose entries
  are permutations of the direction list covers every seed.
* The unbounded recursion / `while` loops are given explicit fuel
  `mazeFuel`; the proofs show the fuel is never exhausted.
-/

namespace Meshmaker

/-- Python errors relevant to the maze engine: `ValueError` (configuration
and bounds errors) and `RuntimeError` (generation failure). -/
inductive PyError where
  | valueError (msg : String)
  | runtimeError (msg : String)
deriving DecidableEq, Repr

/-- Decidable equality of `Except` results (kernel-reducible, for concrete
evaluation of generator runs). -/
instance {ε α : Type} [DecidableEq ε] [DecidableEq α] : DecidableEq (Except ε α) :=
  fun x y =>
    match x, y with
    | .ok a, .ok b => decidable_of_iff (a = b) (by simp)
    | .error e, .error f => decidable_of_iff (e = f) (by simp)
    | .ok _, .error _ => .isFalse (by simp)
    | .error _, .ok _ => .isFalse (by simp)

/-- The direction list of `_carve_path`:
`directions = [(0, -2), (2, 0), (0, 2), (-2, 0)]`. -/
def carveDirs : List (ℤ × ℤ) := [(0, -2), (2, 0), (0, 2), (-2, 0)]

/-- The fixed neighbour order of the BFS in `_find_solution`:
`[(0, -1), (1, 0), (0, 1), (-1, 0)]`. -/
def bfsDirs : List (ℤ × ℤ) := [(0, -1), (1, 0), (0, 1), (-1, 0)]

/-- The maze state mutated by `_carve_path`: the set of open cells of
`self._maze` (as a list, queried only through membership, so it is
observationally the set of `False` entries of the Python bool array) plus
the position `k` in the shuffle stream. -/
structure CarveState where
  op : List (ℤ × ℤ)
  k : ℕ
deriving DecidableEq

/-- `_carve_path(x, y)`: mark `(x, y)` open, draw the next shuffle of the
direction list from the stream, and run the `for dx, dy in directions`
loop: for each direction in that order, if the 2-step target is in bounds
and still a wall, open the intervening wall cell
(`self._maze[y + dy // 2][x + dx // 2] = False`) and recurse into the
target. -/
def carveCell (w h : ℤ) (perms : ℕ → List (ℤ × ℤ)) :
    ℕ → ℤ × ℤ → CarveState → CarveState
  | 0, _, st => st
  | fuel + 1, c, st =>
    (perms st.k).foldl
      (fun st2 d =>
        let n : ℤ × ℤ := (c.1 + d.1, c.2 + d.2)
        if 0 ≤ n.1 ∧ n.1 < w ∧ 0 ≤ n.2 ∧ n.2 < h ∧ n ∉ st2.op then
          carveCell w h perms fuel n
            ⟨(c.1 + d.1 / 2, c.2 + d.2 / 2) :: st2.op, st2.k⟩
        else st2)
      ⟨c :: st.op, st.k + 1⟩

/-- Fuel sufficient for both the carve recursion and the BFS loop of a
`width × height` maze (each opens / visits each grid cell at most once). -/
def mazeFuel (w h : ℤ) : ℕ := (w * h).toNat + 1

/-- One pass of the `for dx, dy in [...]` loop body of the BFS in
`_find_solution`: append each in-bounds, open, unvisited neighbour of `c`
(with its extended path) to the queue and to the visited set. -/
def bfsExpand (w h : ℤ) (op : List (ℤ × ℤ)) (c : ℤ × ℤ) (p : List (ℤ × ℤ)) :
    List (ℤ × ℤ) → List ((ℤ × ℤ) × List (ℤ × ℤ)) → List (ℤ × ℤ) →
    List ((ℤ × ℤ) × List (ℤ × ℤ)) × List (ℤ × ℤ)
  | [], q, v => (q, v)
  | d :: ds, q, v =>
    let n : ℤ × ℤ := (c.1 + d.1, c.2 + d.2)
    if 0 ≤ n.1 ∧ n.1 < w ∧ 0 ≤ n.2 ∧ n.2 < h ∧ n ∈ op ∧ n ∉ v then
      bfsExpand w h op c p ds (q ++ [(n, p ++ [n])]) (n :: v)
    else
      bfsExpand w h op c p ds q v

/-- The `while queue` loop of `_find_solution`: pop the front entry, return
its path if it is the exit, otherwise enqueue the fresh neighbours. -/
def bfsLoop (w h : ℤ) (op : List (ℤ × ℤ)) (dirs : List (ℤ × ℤ)) :
    ℕ → List ((ℤ × ℤ) × List (ℤ × ℤ)) → List (ℤ × ℤ) → Option (List (ℤ × ℤ))
  | 0, _, _ => none
  | _ + 1, [], _ => none
  | fuel + 1, (c, p) :: rest, v =>
    if c = (w - 2, h - 1) then some p
    else
      let qv := bfsExpand w h op c p dirs rest v
      bfsLoop w h op dirs fuel qv.1 qv.2

/-- `_find_solution`, parameterised by the neighbour-exploration order
(the source fixes it to `bfsDirs`); `none` models the
`RuntimeError("No solution path found - maze generation failed")` branch. -/
def findSolutionWith (w h : ℤ) (op : List (ℤ × ℤ)) (dirs : List (ℤ × ℤ)) :
    Option (List (ℤ × ℤ)) :=
  bfsLoop w h op dirs (mazeFuel w h) [((1, 0), [(1, 0)])] [(1, 0)]

/-- `_find_solution` exactly as in the source. -/
def findSolution (w h : ℤ) (op : List (ℤ × ℤ)) : Option (List (ℤ × ℤ)) :=
  findSolutionWith w h op bfsDirs

/-- The state of a `MazeGenerator` instance (the appearance parameters are
opaque pass-through values with no bearing on any claim, so they are not
carried). -/
structure MazeGenerator where
  width : ℤ
  height : ℤ
  maze : List (ℤ × ℤ)
  solutionPath : List (ℤ × ℤ)
deriving DecidableEq

/-- `MazeGenerator.__init__`: validate the dimensions, then create the
all-walls field (`∅` of open cells) and the empty solution path. -/
def MazeGenerator.init (width height : ℤ) : Except PyError MazeGenerator :=
  if width < 3 ∨ height < 3 then
    .error (.valueError "Maze dimensions must be at least 3x3")
  else if width % 2 = 0 ∨ height % 2 = 0 then
    .error (.valueError "Maze dimensions must be odd numbers")
  else
    .ok ⟨width, height, [], []⟩

/-- `MazeGenerator.generate(seed)`: reset the maze to all walls, carve from
`(1, 1)`, force open the entry `(1, 0)` and the exit
`(width - 2, height - 1)`, then solve.  The shuffle stream `perms` models
the seeded `random` module (a fixed seed determines the stream). -/
def MazeGenerator.generate (g : MazeGenerator) (perms : ℕ → List (ℤ × ℤ)) :
    Except PyError MazeGenerator :=
  let st := carveCell g.width g.height perms (mazeFuel g.width g.height) (1, 1) ⟨[], 0⟩
  let op := (1, 0) :: (g.width - 2, g.height - 1) :: st.op
  match findSolution g.width g.height op with
  | some p => .ok { g with maze := op, solutionPath := p }
  | none => .error (.runtimeError "No solution path found - maze generation failed")

/-- `get_solution_path`: return a copy of the stored path (value semantics;
the heap model for the copy-isolation claim is below). -/
def MazeGenerator.getSolutionPath (g : MazeGenerator) : List (ℤ × ℤ) :=
  g.solutionPath

/-- The fixed entry cell `(1, 0)` (Python `self._maze[0][1] = False`). -/
def entryCell : ℤ × ℤ := (1, 0)

/-- The fixed exit cell `(width - 2, height - 1)`
(Python `self._maze[self.height - 1][self.width - 2] = False`). -/
def exitCell (w h : ℤ) : ℤ × ℤ := (w - 2, h - 1)

/-! ## Specification-level predicates -/

/-- 4-adjacency: Manhattan distance exactly 1. -/
def gridAdj (a b : ℤ × ℤ) : Prop :=
  (a.1 - b.1).natAbs + (a.2 - b.2).natAbs = 1

instance (a b : ℤ × ℤ) : Decidable (gridAdj a b) := by
  unfold gridAdj; infer_instance

/-- In-bounds for a `w × h` grid. -/
def inGrid (w h : ℤ) (c : ℤ × ℤ) : Prop :=
  0 ≤ c.1 ∧ c.1 < w ∧ 0 ≤ c.2 ∧ c.2 < h

instance (w h : ℤ) (c : ℤ × ℤ) : Decidable (inGrid w h c) := by
  unfold inGrid; infer_instance

/-- A simple path in the open-cell graph: nonempty, from `a` to `b`,
consecutive cells 4-adjacent, every cell open, no repeated cell. -/
def IsPathList (op : List (ℤ × ℤ)) (a b : ℤ × ℤ) (p : List (ℤ × ℤ)) : Prop :=
  p ≠ [] ∧ p.head? = some a ∧ p.getLast? = some b ∧ p.Chain' gridAdj ∧
    (∀ x ∈ p, x ∈ op) ∧ p.Nodup

/-- The stream of `random.shuffle` results: every entry is a permutation of
the canonical direction list.  Every seed of the Python RNG induces one
such stream, so universal quantification over these streams covers every
seed (and the unseeded case). -/
def ShufflesOf (perms : ℕ → List (ℤ × ℤ)) : Prop :=
  ∀ k, (perms k).Perm carveDirs

/-- A lattice ("room") cell actually used by the carver: both coordinates
odd, inside the interior box `[1, w-2] × [1, h-2]`. -/
def IsRoomCell (w h : ℤ) (c : ℤ × ℤ) : Prop :=
  c.1 % 2 = 1 ∧ c.2 % 2 = 1 ∧ 1 ≤ c.1 ∧ c.1 ≤ w - 2 ∧ 1 ≤ c.2 ∧ c.2 ≤ h - 2

instance (w h : ℤ) (c : ℤ × ℤ) : Decidable (IsRoomCell w h c) := by
  unfold IsRoomCell; infer_instance

/-- A wall cell that sits between two horizontally or vertically adjacent
room cells (exactly one even coordinate, in the interior). -/
def IsMidCell (w h : ℤ) (c : ℤ × ℤ) : Prop :=
  (c.1 % 2 = 0 ∧ c.2 % 2 = 1 ∧ 2 ≤ c.1 ∧ c.1 ≤ w - 3 ∧ 1 ≤ c.2 ∧ c.2 ≤ h - 2) ∨
  (c.1 % 2 = 1 ∧ c.2 % 2 = 0 ∧ 1 ≤ c.1 ∧ c.1 ≤ w - 2 ∧ 2 ≤ c.2 ∧ c.2 ≤ h - 3)

instance (w h : ℤ) (c : ℤ × ℤ) : Decidable (IsMidCell w h c) := by
  unfold IsMidCell; infer_instance

/-- Rooted-forest structure on an open-cell set: every non-root open cell
has an open parent, adjacent to it and of smaller rank, and *every*
adjacency between open cells is a parent link.  This is the shape the
recursive carve produces; it forces simple paths to be unique. -/
def ParInv (op : List (ℤ × ℤ)) (root : ℤ × ℤ) (par : ℤ × ℤ → ℤ × ℤ)
    (rk : ℤ × ℤ → ℕ) : Prop :=
  (∀ x ∈ op, x ≠ root → par x ∈ op ∧ gridAdj (par x) x ∧ rk (par x) < rk x) ∧
  (∀ x ∈ op, ∀ y ∈ op, gridAdj x y → (x ≠ root ∧ par x = y) ∨ (y ≠ root ∧ par y = x))

/-! ## CubeGrid (`cube_grid.py`)

The appearance payload (`CubeAppearance`) is opaque to every claim about
the grid, so the grid is parameterised by the appearance type `α`.  The
`numpy` boolean occupancy array is represented by the `Finset` of occupied
positions, and the `_appearances` dict by a partial function. -/

/-- `CubeGrid` state: dimensions, occupancy, per-cell appearances, and the
default appearance. -/
structure CubeGrid (α : Type) where
  dimensions : ℤ × ℤ × ℤ
  grid : Finset (ℤ × ℤ × ℤ)
  appearances : ℤ × ℤ × ℤ → Option α
  defaultAppearance : α

/-- `CubeGrid._is_valid_position`. -/
def CubeGrid.isValidPosition {α : Type} (g : CubeGrid α) (p : ℤ × ℤ × ℤ) : Prop :=
  0 ≤ p.1 ∧ p.1 < g.dimensions.1 ∧ 0 ≤ p.2.1 ∧ p.2.1 < g.dimensions.2.1 ∧
    0 ≤ p.2.2 ∧ p.2.2 < g.dimensions.2.2

instance {α : Type} (g : CubeGrid α) (p : ℤ × ℤ × ℤ) :
    Decidable (g.isValidPosition p) := by
  unfold CubeGrid.isValidPosition; infer_instance

/-- `CubeGrid.__init__`: positive dimensions, empty occupancy, empty
appearance dict (the fresh `CubeAppearance()` default is a parameter). -/
def CubeGrid.init (α : Type) (dims : ℤ × ℤ × ℤ) (defaultApp : α) :
    Except PyError (CubeGrid α) :=
  if 0 < dims.1 ∧ 0 < dims.2.1 ∧ 0 < dims.2.2 then
    .ok ⟨dims, ∅, fun _ => none, defaultApp⟩
  else
    .error (.valueError "All dimensions must be positive")

/-- The bounds-error message of `set_cube` / `get_cube`. -/
def CubeGrid.boundsMsg {α : Type} (g : CubeGrid α) (p : ℤ × ℤ × ℤ) : String :=
  "Position " ++ toString p ++ " is outside grid bounds " ++ toString g.dimensions

/-- `CubeGrid.set_cube`: bounds check first (so an error leaves the state
unchanged), then write occupancy and update the appearance dict. -/
def CubeGrid.setCube {α : Type} (g : CubeGrid α) (pos : ℤ × ℤ × ℤ)
    (occupied : Bool) (appearance : Option α) :
    Except PyError Unit × CubeGrid α :=
  if ¬ g.isValidPosition pos then
    (.error (.valueError (g.boundsMsg pos)), g)
  else
    let grid' := if occupied then insert pos g.grid else g.grid.erase pos
    let apps' :=
      match occupied, appearance with
      | true, some a => fun q => if q = pos then some a else g.appearances q
      | true, none => g.appearances
      | false, _ =>
        if (g.appearances pos).isSome then
          fun q => if q = pos then none else g.appearances q
        else g.appearances
    (.ok (), { g with grid := grid', appearances := apps' })

/-- `CubeGrid.get_cube`: bounds check, then read occupancy. -/
def CubeGrid.getCube {α : Type} (g : CubeGrid α) (pos : ℤ × ℤ × ℤ) :
    Except PyError Bool × CubeGrid α :=
  if ¬ g.isValidPosition pos then
    (.error (.valueError (g.boundsMsg pos)), g)
  else
    (.ok (pos ∈ g.grid), g)

/-- `CubeGrid.get_appearance`: `self._appearances.get(position,
self._default_appearance)` — note: no bounds check in the source. -/
def CubeGrid.getAppearance {α : Type} (g : CubeGrid α) (pos : ℤ × ℤ × ℤ) : α :=
  (g.appearances pos).getD g.defaultAppearance

/-- Rendering of the spec's words for `get_appearance` ("rejects any
coordinate outside the grid with an out-of-bounds error"), used only to
compare the claimed behaviour with the source's actual behaviour. -/
def CubeGrid.getAppearanceSpec {α : Type} (g : CubeGrid α) (pos : ℤ × ℤ × ℤ) :
    Except PyError α × CubeGrid α :=
  if ¬ g.isValidPosition pos then
    (.error (.valueError (g.boundsMsg pos)), g)
  else
    (.ok ((g.appearances pos).getD g.defaultAppearance), g)

/-! ## Heap model for `get_solution_path` copy isolation

Python lists are heap objects; `return self._solution_path.copy()`
allocates a fresh list.  To state copy isolation (claim C9) we model the
list heap explicitly: addresses are naturals, the store maps an address to
the list it holds, and `copy` allocates at the next fresh address. -/

/-- A heap of `List (ℤ × ℤ)` objects with an allocation counter. -/
structure ListHeap where
  next : ℕ
  mem : ℕ → List (ℤ × ℤ)

/-- `list.copy()`: allocate a fresh address holding the same elements. -/
def ListHeap.copyAlloc (s : ListHeap) (l : List (ℤ × ℤ)) : ℕ × ListHeap :=
  (s.next, ⟨s.next + 1, fun i => if i = s.next then l else s.mem i⟩)

/-- In-place mutation of the list object at address `a`. -/
def ListHeap.writeAt (s : ListHeap) (a : ℕ) (l : List (ℤ × ℤ)) : ListHeap :=
  ⟨s.next, fun i => if i = a then l else s.mem i⟩

/-- `get_solution_path` in the heap model: the generator holds its
`_solution_path` at address `solAddr`; the call returns the address of a
fresh copy (`self._solution_path.copy()`), leaving `solAddr` untouched. -/
def getSolutionPathHeap (solAddr : ℕ) (s : ListHeap) : ℕ × ListHeap :=
  s.copyAlloc (s.mem solAddr)

/-! ## The read-only accessors, as state transformers

A Python method may mutate its instance, so each accessor is translated
as `state → result × state`.  The bodies of `get_solution_path`,
`to_cube_grid` and `print_maze` contain no assignment to `self._maze` or
`self._solution_path`, which the translation makes visible: the returned
state component is the incoming instance. -/

/-- `get_solution_path` as a state transformer: read the stored path and
return it (the returned list is a fresh copy — see the heap model
above). -/
def MazeGenerator.getSolutionPathSt (g : MazeGenerator) :
    List (ℤ × ℤ) × MazeGenerator :=
  (g.solutionPath, g)

/-- `to_cube_grid(include_solution)`: build a `(width, 1, height)` cube
grid holding a cube per wall cell (wall appearance), per solution cell
when requested and a solution appearance is set, or per open cell when a
path appearance is set.  The instance's appearance attributes are opaque
pass-through values and enter as parameters; `default_appearance` is the
fresh `CubeAppearance()` made by the `CubeGrid` constructor.  Every
written position `(x, 0, y)` lies inside the grid, so the `set_cube`
bounds check never fires and only the updated grid is threaded on.  The
method reads but never writes the maze state. -/
def MazeGenerator.toCubeGrid {α : Type} (g : MazeGenerator)
    (includeSolution : Bool) (wallAppearance : α) (pathAppearance : Option α)
    (solutionAppearance : Option α) (defaultAppearance : α) :
    Except PyError (CubeGrid α) × MazeGenerator :=
  let result : Except PyError (CubeGrid α) :=
    match CubeGrid.init α (g.width, 1, g.height) defaultAppearance with
    | .error e => .error e
    | .ok grid0 =>
      let solutionSet : List (ℤ × ℤ) :=
        if includeSolution then g.solutionPath else []
      .ok ((List.range g.height.toNat).foldl (fun gy y =>
        (List.range g.width.toNat).foldl (fun gx x =>
          if ((x : ℤ), (y : ℤ)) ∉ g.maze then
            (gx.setCube ((x : ℤ), 0, (y : ℤ)) true (some wallAppearance)).2
          else if ((x : ℤ), (y : ℤ)) ∈ solutionSet ∧
              solutionAppearance.isSome = true then
            (gx.setCube ((x : ℤ), 0, (y : ℤ)) true solutionAppearance).2
          else if pathAppearance.isSome = true then
            (gx.setCube ((x : ℤ), 0, (y : ℤ)) true pathAppearance).2
          else gx) gy) grid0)
  (result, g)

/-- `print_maze(show_solution)`: the rows of the debug text rendering,
one string per grid row ("o" for solution cells, "█" for walls, a space
for open path cells).  Read-only on the maze state. -/
def MazeGenerator.printMaze (g : MazeGenerator) (showSolution : Bool) :
    List String × MazeGenerator :=
  let solutionSet : List (ℤ × ℤ) :=
    if showSolution then g.solutionPath else []
  ((List.range g.height.toNat).map (fun y =>
    (List.range g.width.toNat).foldl (fun row x =>
      if ((x : ℤ), (y : ℤ)) ∈ solutionSet then row ++ "o"
      else if ((x : ℤ), (y : ℤ)) ∉ g.maze then row ++ "█"
      else row ++ " ") ""), g)

/-! ## Proof-support definitions -/

/-- The cells of the `w × h` grid, as a finite set (for counting
arguments). -/
def rect (w h : ℤ) : Finset (ℤ × ℤ) :=
  Finset.Icc 0 (w - 1) ×ˢ Finset.Icc 0 (h - 1)

/-- The number of grid cells not in `op`: the strictly-decreasing measure
of the carve recursion and of the BFS visited set. -/
def closedCount (w h : ℤ) (op : List (ℤ × ℤ)) : ℕ :=
  ((rect w h).filter (fun c => c ∉ op)).card

/-- Direction lists whose steps move to a 4-neighbour (both `carveDirs`
halves and `bfsDirs` satisfy this). -/
def UnitSteps (dirs : List (ℤ × ℤ)) : Prop :=
  ∀ d ∈ dirs, d.1.natAbs + d.2.natAbs = 1

/-- Validity invariant of the BFS queue: every queued entry `(c, p)` is a
simple path in the open cells from `start` to `c`, all of whose cells have
been visited. -/
def GoodQueue (op : List (ℤ × ℤ)) (start : ℤ × ℤ)
    (q : List ((ℤ × ℤ) × List (ℤ × ℤ))) (v : List (ℤ × ℤ)) : Prop :=
  ∀ e ∈ q, IsPathList op start e.1 e.2 ∧ ∀ x ∈ e.2, x ∈ v

/-- Carve invariant: every open cell is a room or an intervening wall
cell. -/
def CarveParity (w h : ℤ) (op : List (ℤ × ℤ)) : Prop :=
  ∀ x ∈ op, IsRoomCell w h x ∨ IsMidCell w h x

/-- Carve invariant: an open intervening wall cell has both of its
adjacent rooms open. -/
def MidRoomsOpen (w h : ℤ) (op : List (ℤ × ℤ)) : Prop :=
  ∀ m ∈ op, IsMidCell w h m → ∀ r : ℤ × ℤ, gridAdj m r → IsRoomCell w h r → r ∈ op

/-- `MidRoomsOpen` with one room (the cell the carver is about to open)
exempted. -/
def MidRoomsOpenExcept (w h : ℤ) (e : ℤ × ℤ) (op : List (ℤ × ℤ)) : Prop :=
  ∀ m ∈ op, IsMidCell w h m → ∀ r : ℤ × ℤ, gridAdj m r → IsRoomCell w h r →
    r ≠ e → r ∈ op

/-- A room all of whose in-grid 2-step neighbours are open: the state of a
room whose `_carve_path` call has returned. -/
def GoodRoom (w h : ℤ) (op : List (ℤ × ℤ)) (x : ℤ × ℤ) : Prop :=
  ∀ d ∈ carveDirs, IsRoomCell w h (x.1 + d.1, x.2 + d.2) →
    (x.1 + d.1, x.2 + d.2) ∈ op

/-- A single move between two open cells. -/
def openStep (op : List (ℤ × ℤ)) (a b : ℤ × ℤ) : Prop :=
  a ∈ op ∧ b ∈ op ∧ gridAdj a b

/-- Reachability inside the open-cell graph. -/
def Reach (op : List (ℤ × ℤ)) (a b : ℤ × ℤ) : Prop :=
  Relation.ReflTransGen (openStep op) a b

/-- The full inductive specification of `_carve_path` at a given fuel:
called on an unvisited room `c` from a state whose open set satisfies the
carve invariants (with the wall cell between `c` and its parent already
open, `c`'s parent link prepared, and fuel above the number of closed
cells), it returns a state that extends the old one, contains `c`,
satisfies all invariants with parent/rank maps extending the old ones, and
in which every room opened by the call has all of its in-grid 2-step
neighbours open. -/
def CellSpec (w h : ℤ) (perms : ℕ → List (ℤ × ℤ)) (fuel : ℕ) : Prop :=
  ∀ (c : ℤ × ℤ) (st : CarveState) (par : ℤ × ℤ → ℤ × ℤ) (rk : ℤ × ℤ → ℕ),
    IsRoomCell w h c →
    c ∉ st.op →
    ((1, 1) ∈ st.op ∨ c = (1, 1)) →
    CarveParity w h st.op →
    ParInv st.op (1, 1) par rk →
    MidRoomsOpenExcept w h c st.op →
    (∀ y ∈ st.op, gridAdj c y → c ≠ (1, 1) ∧ y = par c) →
    (c ≠ (1, 1) → par c ∈ st.op ∧ gridAdj (par c) c ∧ rk (par c) < rk c) →
    closedCount w h st.op + 1 ≤ fuel →
    (∀ x ∈ st.op, x ∈ (carveCell w h perms fuel c st).op) ∧
    c ∈ (carveCell w h perms fuel c st).op ∧
    ∃ (par' : ℤ × ℤ → ℤ × ℤ) (rk' : ℤ × ℤ → ℕ),
      (∀ x : ℤ × ℤ, x ∈ st.op ∨ x = c → par' x = par x ∧ rk' x = rk x) ∧
      CarveParity w h (carveCell w h perms fuel c st).op ∧
      ParInv (carveCell w h perms fuel c st).op (1, 1) par' rk' ∧
      MidRoomsOpen w h (carveCell w h perms fuel c st).op ∧
      (∀ x ∈ (carveCell w h perms fuel c st).op, x ∉ st.op →
        IsRoomCell w h x → GoodRoom w h (carveCell w h perms fuel c st).op x)

/-! # Theorems -/

/-! ## C5: constructor validation -/

/-- **C5.** `MazeGenerator.__init__` raises a `ValueError` exactly for
dimensions that are too small (message "must be at least 3x3", checked
first) or even (message "must be odd numbers"); otherwise an instance with
an all-wall grid is constructed, and `generate` on any instance never
raises a `ValueError` (its only error is the solver's `RuntimeError`). -/
theorem claim_C5_constructor_validation (w h : ℤ) :
    (MazeGenerator.init w h =
        .error (.valueError "Maze dimensions must be at least 3x3") ↔
      w < 3 ∨ h < 3) ∧
    (MazeGenerator.init w h =
        .error (.valueError "Maze dimensions must be odd numbers") ↔
      ¬(w < 3 ∨ h < 3) ∧ (w % 2 = 0 ∨ h % 2 = 0)) ∧
    ((∃ g, MazeGenerator.init w h = .ok g) ↔
      3 ≤ w ∧ 3 ≤ h ∧ w % 2 ≠ 0 ∧ h % 2 ≠ 0) ∧
    (∀ g : MazeGenerator, ∀ perms msg,
      g.generate perms ≠ .error (.valueError msg)) := by
  refine ⟨?_, ?_, ?_, ?_⟩
  · unfold MazeGenerator.init
    split_ifs with h1 h2 <;> simp_all
  · unfold MazeGenerator.init
    split_ifs with h1 h2 <;> simp_all
  · unfold MazeGenerator.init
    split_ifs with h1 h2 <;> simp_all <;> omega
  · intro g perms msg
    unfold MazeGenerator.generate
    simp only []
    split <;> simp

/-- Witness for C5 at the boundary inputs named by the claim:
width 1, 2, 4 and height 2 are rejected, 3×3 is accepted. -/
theorem claim_C5_witness :
    MazeGenerator.init 1 5 =
        .error (.valueError "Maze dimensions must be at least 3x3") ∧
    MazeGenerator.init 2 5 =
        .error (.valueError "Maze dimensions must be at least 3x3") ∧
    MazeGenerator.init 5 2 =
        .error (.valueError "Maze dimensions must be at least 3x3") ∧
    MazeGenerator.init 4 5 =
        .error (.valueError "Maze dimensions must be odd numbers") ∧
    (∃ g, MazeGenerator.init 3 3 = .ok g) :=
  ⟨(claim_C5_constructor_validation 1 5).1.mpr (by decide),
   (claim_C5_constructor_validation 2 5).1.mpr (by decide),
   (claim_C5_constructor_validation 5 2).1.mpr (by decide),
   (claim_C5_constructor_validation 4 5).2.1.mpr (by decide),
   (claim_C5_constructor_validation 3 3).2.2.1.mpr (by decide)⟩

/-! ## C10: solution path before generation -/

/-- **C10.** On a freshly constructed (never generated) instance,
`get_solution_path` returns the empty list. -/
theorem claim_C10_fresh_solution_path_empty (w h : ℤ) (g : MazeGenerator)
    (hg : MazeGenerator.init w h = .ok g) : g.getSolutionPath = [] := by
  unfold MazeGenerator.init at hg
  split_ifs at hg
  cases hg
  rfl

/-- Witness for C10 at the concrete instance constructed by
`MazeGenerator.init 3 3`. -/
theorem claim_C10_witness :
    MazeGenerator.init 3 3 = .ok ⟨3, 3, [], []⟩ ∧
    MazeGenerator.getSolutionPath ⟨3, 3, [], []⟩ = [] :=
  ⟨by decide, claim_C10_fresh_solution_path_empty 3 3 ⟨3, 3, [], []⟩ (by decide)⟩

/-! ## C4: determinism / reproducibility -/

/-- **C4.** `generate` reads nothing of the instance state except `width`
and `height` (it resets the wall field before carving), and the shuffle
stream is a function of the seed, so two instances with equal dimensions
generate bit-identical wall fields and identical solution paths from the
same seed. -/
theorem claim_C4_reproducibility (g1 g2 : MazeGenerator)
    (perms : ℕ → List (ℤ × ℤ)) (hw : g1.width = g2.width)
    (hh : g1.height = g2.height) :
    g1.generate perms = g2.generate perms ∧
    (g1.generate perms).toOption.map MazeGenerator.getSolutionPath =
      (g2.generate perms).toOption.map MazeGenerator.getSolutionPath := by
  obtain ⟨w1, h1, m1, p1⟩ := g1
  obtain ⟨w2, h2, m2, p2⟩ := g2
  simp only [] at hw hh
  subst hw hh
  refine ⟨?_, ?_⟩ <;> rfl

/-- Witness for C4: two instances with equal dimensions but different stale
maze/path fields produce identical generation results. -/
theorem claim_C4_witness :
    MazeGenerator.generate ⟨3, 3, [], []⟩ (fun _ => carveDirs) =
      MazeGenerator.generate ⟨3, 3, [(9, 9)], [(1, 1)]⟩ (fun _ => carveDirs) :=
  (claim_C4_reproducibility _ _ _ rfl rfl).1

/-! ## C9: copy isolation of `get_solution_path` -/

/-- **C9.** Two parts.  In the heap model of
`return self._solution_path.copy()`: two calls return distinct addresses
holding equal contents, mutating the first returned copy changes neither
the stored path nor the other copy, and a call after the mutation still
returns the original contents.  And at the instance level, each of the
read accessors — `get_solution_path`, `to_cube_grid`, `print_maze` —
leaves both the wall field and the stored solution path of the instance
unchanged. -/
theorem claim_C9_copy_isolation (solAddr : ℕ) (s : ListHeap)
    (hlt : solAddr < s.next) (l' : List (ℤ × ℤ)) (g : MazeGenerator)
    (α : Type) (includeSolution showSolution : Bool) (wallApp defApp : α)
    (pathApp solApp : Option α) :
    (getSolutionPathHeap solAddr s).1 ≠
      (getSolutionPathHeap solAddr (getSolutionPathHeap solAddr s).2).1 ∧
    ((getSolutionPathHeap solAddr (getSolutionPathHeap solAddr s).2).2.mem
        (getSolutionPathHeap solAddr s).1 = s.mem solAddr ∧
      (getSolutionPathHeap solAddr (getSolutionPathHeap solAddr s).2).2.mem
        (getSolutionPathHeap solAddr (getSolutionPathHeap solAddr s).2).1 =
        s.mem solAddr) ∧
    (((getSolutionPathHeap solAddr (getSolutionPathHeap solAddr s).2).2.writeAt
          (getSolutionPathHeap solAddr s).1 l').mem solAddr = s.mem solAddr ∧
      ((getSolutionPathHeap solAddr (getSolutionPathHeap solAddr s).2).2.writeAt
          (getSolutionPathHeap solAddr s).1 l').mem
        (getSolutionPathHeap solAddr (getSolutionPathHeap solAddr s).2).1 =
        s.mem solAddr) ∧
    ((getSolutionPathHeap solAddr
        ((getSolutionPathHeap solAddr (getSolutionPathHeap solAddr s).2).2.writeAt
          (getSolutionPathHeap solAddr s).1 l')).2.mem
      (getSolutionPathHeap solAddr
        ((getSolutionPathHeap solAddr (getSolutionPathHeap solAddr s).2).2.writeAt
          (getSolutionPathHeap solAddr s).1 l')).1 = s.mem solAddr) ∧
    (g.getSolutionPathSt.2.maze = g.maze ∧
      g.getSolutionPathSt.2.solutionPath = g.solutionPath) ∧
    ((g.toCubeGrid includeSolution wallApp pathApp solApp defApp).2.maze =
        g.maze ∧
      (g.toCubeGrid includeSolution wallApp pathApp solApp defApp).2.solutionPath =
        g.solutionPath) ∧
    ((g.printMaze showSolution).2.maze = g.maze ∧
      (g.printMaze showSolution).2.solutionPath = g.solutionPath) := by
  simp only [getSolutionPathHeap, ListHeap.copyAlloc, ListHeap.writeAt]
  have h1 : solAddr ≠ s.next := Nat.ne_of_lt hlt
  have h2 : solAddr ≠ s.next + 1 := by omega
  have h3 : s.next + 1 ≠ s.next := by omega
  have h4 : s.next + 1 ≠ s.next + 1 + 1 := by omega
  refine ⟨by omega, ⟨?_, ?_⟩, ⟨?_, ?_⟩, ?_, ⟨rfl, rfl⟩, ⟨rfl, rfl⟩, rfl, rfl⟩ <;>
    simp [if_neg h1, if_neg h2, if_neg h3, h4]

/-- Witness for C9 at a concrete one-object heap and a concrete generated
instance. -/
theorem claim_C9_witness :
    (getSolutionPathHeap 0 ⟨1, fun _ => [(1, 0)]⟩).1 ≠
      (getSolutionPathHeap 0 (getSolutionPathHeap 0 ⟨1, fun _ => [(1, 0)]⟩).2).1 ∧
    ((⟨3, 3, [(1, 0), (1, 2), (1, 1)], [(1, 0), (1, 1), (1, 2)]⟩ :
        MazeGenerator).printMaze true).2.maze = [(1, 0), (1, 2), (1, 1)] :=
  ⟨(claim_C9_copy_isolation 0 ⟨1, fun _ => [(1, 0)]⟩ (by decide) [(5, 5)]
      ⟨3, 3, [(1, 0), (1, 2), (1, 1)], [(1, 0), (1, 1), (1, 2)]⟩ ℕ
      true true 0 0 none (some 1)).1,
    (claim_C9_copy_isolation 0 ⟨1, fun _ => [(1, 0)]⟩ (by decide) [(5, 5)]
      ⟨3, 3, [(1, 0), (1, 2), (1, 1)], [(1, 0), (1, 1), (1, 2)]⟩ ℕ
      true true 0 0 none (some 1)).2.2.2.2.2.2.1⟩

/-! ## C8: bounds behaviour of the grid accessors -/

/-- **C8 (amended).** `set_cube` and `get_cube` reject an out-of-bounds
coordinate with a `ValueError` and leave the grid unchanged; but
`get_appearance` performs no bounds check: it returns the stored or
default appearance for any coordinate, including out-of-bounds ones. -/
theorem claim_C8_amended {α : Type} (g : CubeGrid α) (pos : ℤ × ℤ × ℤ)
    (hpos : ¬ g.isValidPosition pos) (occ : Bool) (app : Option α) :
    g.setCube pos occ app = (.error (.valueError (g.boundsMsg pos)), g) ∧
    g.getCube pos = (.error (.valueError (g.boundsMsg pos)), g) ∧
    (g.appearances pos = none →
      g.getAppearance pos = g.defaultAppearance) := by
  refine ⟨?_, ?_, fun hnone => ?_⟩
  · unfold CubeGrid.setCube
    rw [if_pos hpos]
  · unfold CubeGrid.getCube
    rw [if_pos hpos]
  · unfold CubeGrid.getAppearance
    rw [hnone]
    rfl

/-- Counterexample to C8 as stated: on the 1×1×1 grid produced by the
constructor, querying the out-of-bounds position `(5, 0, 0)` through
`get_appearance` does not produce an error — it returns the default
appearance — whereas the spec's bounds-checked rendering of the accessor
(`getAppearanceSpec`) would reject it. -/
theorem claim_C8_counterexample :
    CubeGrid.init ℕ (1, 1, 1) 0 =
      .ok (⟨(1, 1, 1), ∅, fun _ => none, 0⟩ : CubeGrid ℕ) ∧
    ¬ (⟨(1, 1, 1), ∅, fun _ => none, 0⟩ : CubeGrid ℕ).isValidPosition (5, 0, 0) ∧
    (⟨(1, 1, 1), ∅, fun _ => none, 0⟩ : CubeGrid ℕ).getAppearance (5, 0, 0) = 0 ∧
    ((⟨(1, 1, 1), ∅, fun _ => none, 0⟩ : CubeGrid ℕ).getAppearanceSpec (5, 0, 0)).1 =
      .error (.valueError
        ((⟨(1, 1, 1), ∅, fun _ => none, 0⟩ : CubeGrid ℕ).boundsMsg (5, 0, 0))) :=
  ⟨rfl, by decide, rfl, rfl⟩

/-- Witness for the amended C8 at a concrete grid and position. -/
theorem claim_C8_witness :
    CubeGrid.setCube (⟨(1, 1, 1), ∅, fun _ => none, 0⟩ : CubeGrid ℕ) (5, 0, 0)
        true none =
      (.error (.valueError
        (CubeGrid.boundsMsg (⟨(1, 1, 1), ∅, fun _ => none, 0⟩ : CubeGrid ℕ)
          (5, 0, 0))),
        (⟨(1, 1, 1), ∅, fun _ => none, 0⟩ : CubeGrid ℕ)) :=
  (claim_C8_amended _ _ (by decide) true none).1

/-! ## C7: the minimal 3×3 maze -/

/-- In a 3×3 grid, every 2-step move from the single interior room `(1, 1)`
leaves the grid, so the carve loop is a no-op for any shuffle order. -/
theorem carve33_loop (perms : ℕ → List (ℤ × ℤ)) (f : ℕ) :
    ∀ dl : List (ℤ × ℤ), (∀ d ∈ dl, d ∈ carveDirs) → ∀ st2 : CarveState,
      dl.foldl
        (fun st2 d =>
          let n : ℤ × ℤ := (((1 : ℤ), (1 : ℤ)).1 + d.1, ((1 : ℤ), (1 : ℤ)).2 + d.2)
          if 0 ≤ n.1 ∧ n.1 < 3 ∧ 0 ≤ n.2 ∧ n.2 < 3 ∧ n ∉ st2.op then
            carveCell 3 3 perms f n
              ⟨(((1 : ℤ), (1 : ℤ)).1 + d.1 / 2, ((1 : ℤ), (1 : ℤ)).2 + d.2 / 2) :: st2.op, st2.k⟩
          else st2) st2 = st2 := by
  intro dl
  induction dl with
  | nil => intro _ st2; rfl
  | cons d rest ih =>
    intro hmem st2
    have hd : d ∈ carveDirs := hmem d (List.mem_cons_self d rest)
    have hrest : ∀ d' ∈ rest, d' ∈ carveDirs := fun d' hd' =>
      hmem d' (List.mem_cons_of_mem d hd')
    rw [List.foldl_cons]
    have hcond : ¬(0 ≤ (1 : ℤ) + d.1 ∧ (1 : ℤ) + d.1 < 3 ∧
        0 ≤ (1 : ℤ) + d.2 ∧ (1 : ℤ) + d.2 < 3 ∧
        ((1 : ℤ) + d.1, (1 : ℤ) + d.2) ∉ st2.op) := by
      simp only [carveDirs, List.mem_cons, List.mem_singleton] at hd
      rcases hd with rfl | rfl | rfl | rfl | h
      · rintro ⟨-, -, h3, -, -⟩; omega
      · rintro ⟨-, h2, -, -, -⟩; omega
      · rintro ⟨-, -, -, h4, -⟩; omega
      · rintro ⟨h1, -, -, -, -⟩; omega
      · cases h
    simp only [if_neg hcond]
    exact ih hrest st2

/-- Any `_carve_path(1, 1)` call on the 3×3 grid just opens `(1, 1)` and
consumes one shuffle, for every shuffle stream. -/
theorem carveCell33 (perms : ℕ → List (ℤ × ℤ)) (hp : ShufflesOf perms)
    (f : ℕ) (st : CarveState) :
    carveCell 3 3 perms (f + 1) (1, 1) st = ⟨(1, 1) :: st.op, st.k + 1⟩ := by
  have hdl : ∀ d ∈ perms st.k, d ∈ carveDirs := fun d hd =>
    (hp st.k).mem_iff.mp hd
  exact carve33_loop perms f (perms st.k) hdl ⟨(1, 1) :: st.op, st.k + 1⟩

/-- **C7.** For the smallest legal size 3×3 and every seed, the generated
maze opens exactly the entry `(1, 0)`, the single interior room `(1, 1)`,
and the exit `(1, 2)`, and the solution path is
`[(1, 0), (1, 1), (1, 2)]`. -/
theorem claim_C7_minimal_maze (perms : ℕ → List (ℤ × ℤ))
    (hp : ShufflesOf perms) (m p : List (ℤ × ℤ)) :
    ∃ g' : MazeGenerator,
      MazeGenerator.generate ⟨3, 3, m, p⟩ perms = .ok g' ∧
      (∀ c : ℤ × ℤ, c ∈ g'.maze ↔ c = (1, 0) ∨ c = (1, 1) ∨ c = (1, 2)) ∧
      g'.getSolutionPath = [(1, 0), (1, 1), (1, 2)] := by
  refine ⟨⟨3, 3, [(1, 0), (1, 2), (1, 1)], [(1, 0), (1, 1), (1, 2)]⟩, ?_, ?_, rfl⟩
  · unfold MazeGenerator.generate
    rw [show mazeFuel 3 3 = 9 + 1 from rfl]
    rw [show ((⟨3, 3, m, p⟩ : MazeGenerator).width) = 3 from rfl,
        show ((⟨3, 3, m, p⟩ : MazeGenerator).height) = 3 from rfl]
    rw [carveCell33 perms hp 9 ⟨[], 0⟩]
    rfl
  · intro c
    simp only [List.mem_cons, List.mem_singleton, List.not_mem_nil, or_false]
    tauto

/-- Witness for C7 at the identity shuffle stream. -/
theorem claim_C7_witness :
    ∃ g' : MazeGenerator,
      MazeGenerator.generate ⟨3, 3, [], []⟩ (fun _ => carveDirs) = .ok g' ∧
      (∀ c : ℤ × ℤ, c ∈ g'.maze ↔ c = (1, 0) ∨ c = (1, 1) ∨ c = (1, 2)) ∧
      g'.getSolutionPath = [(1, 0), (1, 1), (1, 2)] :=
  claim_C7_minimal_maze (fun _ => carveDirs) (fun _ => List.Perm.refl _) [] []

/-! ## BFS path validity (towards C3) -/

/-- Appending a fresh open neighbour of the endpoint extends a simple path. -/
theorem pathList_extend (op : List (ℤ × ℤ)) (start c n : ℤ × ℤ)
    (p : List (ℤ × ℤ)) (hp : IsPathList op start c p) (hadj : gridAdj c n)
    (hn : n ∈ op) (hnp : n ∉ p) : IsPathList op start n (p ++ [n]) := by
  obtain ⟨hne, hhead, hlast, hchain, hmem, hnodup⟩ := hp
  refine ⟨by simp, ?_, ?_, ?_, ?_, ?_⟩
  · cases p with
    | nil => exact absurd rfl hne
    | cons a l => simpa using hhead
  · simp
  · rw [List.chain'_append]
    refine ⟨hchain, List.chain'_singleton n, ?_⟩
    intro x hx y hy
    rw [hlast] at hx
    simp only [Option.mem_def, Option.some_inj] at hx
    simp only [List.head?_cons, Option.mem_def, Option.some_inj] at hy
    subst hx; subst hy
    exact hadj
  · intro x hx
    rcases List.mem_append.mp hx with hmem' | hmem'
    · exact hmem x hmem'
    · rw [List.mem_singleton] at hmem'
      subst hmem'
      exact hn
  · rw [List.nodup_append]
    exact ⟨hnodup, List.nodup_singleton n,
      fun a ha hb => hnp (by rwa [List.mem_singleton.mp hb] at ha)⟩

/-- The queue invariant is preserved by one neighbour-expansion pass, and
the visited set only grows. -/
theorem bfsExpand_good (w h : ℤ) (op : List (ℤ × ℤ)) (start c : ℤ × ℤ)
    (p : List (ℤ × ℤ)) :
    ∀ (ds : List (ℤ × ℤ)) (q : List ((ℤ × ℤ) × List (ℤ × ℤ)))
      (v : List (ℤ × ℤ)), UnitSteps ds →
      IsPathList op start c p → (∀ x ∈ p, x ∈ v) → GoodQueue op start q v →
      GoodQueue op start (bfsExpand w h op c p ds q v).1
          (bfsExpand w h op c p ds q v).2 ∧
        ∀ x ∈ v, x ∈ (bfsExpand w h op c p ds q v).2 := by
  intro ds
  induction ds with
  | nil => exact fun q v _ _ _ hq => ⟨hq, fun x hx => hx⟩
  | cons d rest ih =>
    intro q v hds hcp hpv hq
    have hdunit : d.1.natAbs + d.2.natAbs = 1 := hds d (List.mem_cons_self d rest)
    have hrest : UnitSteps rest := fun d' hd' => hds d' (List.mem_cons_of_mem d hd')
    rw [bfsExpand]
    split
    case isTrue hcond =>
      obtain ⟨-, -, -, -, hop, hnv⟩ := hcond
      set n : ℤ × ℤ := (c.1 + d.1, c.2 + d.2) with hn
      have hadj : gridAdj c n := by
        simp only [gridAdj, hn]
        omega
      have hnotp : n ∉ p := fun hmem => hnv (hpv n hmem)
      have hnew : IsPathList op start n (p ++ [n]) :=
        pathList_extend op start c n p hcp hadj hop hnotp
      refine (ih (q ++ [(n, p ++ [n])]) (n :: v) hrest hcp ?_ ?_).imp id ?_
      · exact fun x hx => List.mem_cons_of_mem n (hpv x hx)
      · intro e he
        rcases List.mem_append.mp he with he' | he'
        · obtain ⟨h1, h2⟩ := hq e he'
          exact ⟨h1, fun x hx => List.mem_cons_of_mem n (h2 x hx)⟩
        · rw [List.mem_singleton] at he'
          subst he'
          refine ⟨hnew, fun x hx => ?_⟩
          rcases List.mem_append.mp hx with hx' | hx'
          · exact List.mem_cons_of_mem n (hpv x hx')
          · rw [List.mem_singleton] at hx'
            subst hx'
            exact List.mem_cons_self n v
      · exact fun hall x hx => hall x (List.mem_cons_of_mem n hx)
    case isFalse =>
      exact ih q v hrest hcp hpv hq

/-- Any path returned by the BFS loop from a valid queue is a simple path
from `start` to the exit. -/
theorem bfsLoop_valid (w h : ℤ) (op : List (ℤ × ℤ)) (start : ℤ × ℤ)
    (dirs : List (ℤ × ℤ)) (hdirs : UnitSteps dirs) :
    ∀ (fuel : ℕ) (q : List ((ℤ × ℤ) × List (ℤ × ℤ))) (v : List (ℤ × ℤ))
      (sp : List (ℤ × ℤ)), GoodQueue op start q v →
      bfsLoop w h op dirs fuel q v = some sp →
      IsPathList op start (w - 2, h - 1) sp := by
  intro fuel
  induction fuel with
  | zero => intro q v sp _ hrun; exact absurd hrun (by simp [bfsLoop])
  | succ fuel ih =>
    intro q v sp hq hrun
    match q with
    | [] => exact absurd hrun (by simp [bfsLoop])
    | (c, p) :: rest =>
      rw [bfsLoop] at hrun
      split at hrun
      case isTrue hc =>
        obtain ⟨hgood, -⟩ := hq (c, p) (List.mem_cons_self _ _)
        cases hrun
        rw [hc] at hgood
        exact hgood
      case isFalse =>
        obtain ⟨hgood, hcells⟩ := hq (c, p) (List.mem_cons_self _ _)
        have hrest : GoodQueue op start rest v := fun e he =>
          hq e (List.mem_cons_of_mem _ he)
        have hexp := bfsExpand_good w h op start c p dirs rest v hdirs
          hgood hcells hrest
        exact ih _ _ sp hexp.1 hrun

/-! ## C3: validity of the returned solution path -/

/-- **C3.** For every generated maze, the solution path consists of open
cells, consecutive cells are 4-adjacent (Manhattan distance 1), it starts
at the entry `(1, 0)`, ends at the exit `(width - 2, height - 1)`, and no
cell repeats. -/
theorem claim_C3_solution_path_valid (w h : ℤ) (hw : w % 2 = 1)
    (hh : h % 2 = 1) (hw3 : 3 ≤ w) (hh3 : 3 ≤ h)
    (perms : ℕ → List (ℤ × ℤ)) (hp : ShufflesOf perms)
    (m p : List (ℤ × ℤ)) (g' : MazeGenerator)
    (hgen : MazeGenerator.generate ⟨w, h, m, p⟩ perms = .ok g') :
    IsPathList g'.maze entryCell (exitCell w h) g'.getSolutionPath := by
  unfold MazeGenerator.generate at hgen
  simp only [] at hgen
  split at hgen
  case h_2 => exact absurd hgen (by simp)
  case h_1 sp hfs =>
    cases hgen
    have hstart : ((1 : ℤ), (0 : ℤ)) ∈
        ((1, 0) :: (w - 2, h - 1) ::
          (carveCell w h perms (mazeFuel w h) (1, 1) ⟨[], 0⟩).op) :=
      List.mem_cons_self _ _
    have hinit : GoodQueue
        ((1, 0) :: (w - 2, h - 1) ::
          (carveCell w h perms (mazeFuel w h) (1, 1) ⟨[], 0⟩).op)
        (1, 0) [((1, 0), [(1, 0)])] [(1, 0)] := by
      intro e he
      rw [List.mem_singleton] at he
      subst he
      refine ⟨⟨by simp, by simp, by simp, List.chain'_singleton _, ?_, List.nodup_singleton _⟩, ?_⟩
      · intro x hx
        rw [List.mem_singleton] at hx
        subst hx
        exact hstart
      · intro x hx
        exact hx
    have hunit : UnitSteps bfsDirs := by
      intro d hd
      simp only [bfsDirs, List.mem_cons, List.mem_singleton] at hd
      rcases hd with rfl | rfl | rfl | rfl | hfalse
      · rfl
      · rfl
      · rfl
      · rfl
      · cases hfalse
    exact bfsLoop_valid w h _ (1, 0) bfsDirs hunit (mazeFuel w h)
      _ _ sp hinit hfs

/-- Witness for C3 at the concrete 3×3 maze. -/
theorem claim_C3_witness :
    IsPathList [(1, 0), (1, 2), (1, 1)] entryCell (exitCell 3 3)
      (MazeGenerator.getSolutionPath
        ⟨3, 3, [(1, 0), (1, 2), (1, 1)], [(1, 0), (1, 1), (1, 2)]⟩) :=
  claim_C3_solution_path_valid 3 3 (by decide) (by decide) (by decide)
    (by decide) (fun _ => carveDirs) (fun _ => List.Perm.refl _) [] []
    ⟨3, 3, [(1, 0), (1, 2), (1, 1)], [(1, 0), (1, 1), (1, 2)]⟩ (by decide)

/-! ## C6: parity of carved cells (counterexample part) -/

/-- Counterexample to C6 as stated: the very first cell the carver marks
open as a room is the start room `(1, 1)`, whose coordinates are both
*odd*, not both even. -/
theorem claim_C6_counterexample :
    (1, 1) ∈ (carveCell 3 3 (fun _ => carveDirs) (mazeFuel 3 3) (1, 1)
      ⟨[], 0⟩).op ∧
    ¬ ((1 : ℤ) % 2 = 0 ∧ (1 : ℤ) % 2 = 0) := by decide

/-! ## Grid geometry toolkit -/

/-- Destructing a 4-adjacency into the four unit moves. -/
theorem gridAdj_cases {a b : ℤ × ℤ} (hadj : gridAdj a b) :
    (b.1 = a.1 + 1 ∧ b.2 = a.2) ∨ (b.1 = a.1 - 1 ∧ b.2 = a.2) ∨
    (b.1 = a.1 ∧ b.2 = a.2 + 1) ∨ (b.1 = a.1 ∧ b.2 = a.2 - 1) := by
  unfold gridAdj at hadj
  omega

theorem gridAdj_symm {a b : ℤ × ℤ} (hadj : gridAdj a b) : gridAdj b a := by
  unfold gridAdj at hadj ⊢
  omega

theorem gridAdj_irrefl (a : ℤ × ℤ) : ¬ gridAdj a a := by
  unfold gridAdj
  omega

/-- Two rooms are never 4-adjacent (their coordinates are all odd). -/
theorem room_not_adj_room {w h : ℤ} {a b : ℤ × ℤ} (ha : IsRoomCell w h a)
    (hb : IsRoomCell w h b) : ¬ gridAdj a b := by
  unfold IsRoomCell at ha hb
  unfold gridAdj
  omega

theorem room_in_grid {w h : ℤ} {c : ℤ × ℤ} (hc : IsRoomCell w h c) :
    inGrid w h c := by
  unfold IsRoomCell at hc
  unfold inGrid
  omega

theorem room_mem_rect {w h : ℤ} {c : ℤ × ℤ} (hc : IsRoomCell w h c) :
    c ∈ rect w h := by
  unfold IsRoomCell at hc
  simp only [rect, Finset.mem_product, Finset.mem_Icc]
  omega

theorem mid_mem_rect {w h : ℤ} {c : ℤ × ℤ} (hc : IsMidCell w h c) :
    c ∈ rect w h := by
  unfold IsMidCell at hc
  simp only [rect, Finset.mem_product, Finset.mem_Icc]
  omega

theorem carveDirs_cases {d : ℤ × ℤ} (hd : d ∈ carveDirs) :
    d = (0, -2) ∨ d = (2, 0) ∨ d = (0, 2) ∨ d = (-2, 0) := by
  simpa [carveDirs] using hd

/-- A 2-step target that is in the grid is itself a room. -/
theorem roomStep_room {w h : ℤ} (hw : w % 2 = 1) (hh : h % 2 = 1)
    {c d : ℤ × ℤ} (hc : IsRoomCell w h c) (hd : d ∈ carveDirs)
    (hn : inGrid w h (c.1 + d.1, c.2 + d.2)) :
    IsRoomCell w h (c.1 + d.1, c.2 + d.2) := by
  rcases carveDirs_cases hd with rfl | rfl | rfl | rfl <;>
    (unfold IsRoomCell at hc ⊢; unfold inGrid at hn; simp only [] at *; omega)

/-- The intervening cell between a room and an in-grid 2-step target is a
wall ("mid") cell. -/
theorem mid_is_mid {w h : ℤ} {c d : ℤ × ℤ} (hc : IsRoomCell w h c)
    (hd : d ∈ carveDirs) (hn : IsRoomCell w h (c.1 + d.1, c.2 + d.2)) :
    IsMidCell w h (c.1 + d.1 / 2, c.2 + d.2 / 2) := by
  rcases carveDirs_cases hd with rfl | rfl | rfl | rfl <;>
    (unfold IsRoomCell at hc hn; unfold IsMidCell; norm_num at *; omega)

theorem adj_c_mid {c d : ℤ × ℤ} (hd : d ∈ carveDirs) :
    gridAdj c (c.1 + d.1 / 2, c.2 + d.2 / 2) := by
  rcases carveDirs_cases hd with rfl | rfl | rfl | rfl <;>
    (unfold gridAdj; norm_num)

theorem adj_mid_n {c d : ℤ × ℤ} (hd : d ∈ carveDirs) :
    gridAdj (c.1 + d.1 / 2, c.2 + d.2 / 2) (c.1 + d.1, c.2 + d.2) := by
  rcases carveDirs_cases hd with rfl | rfl | rfl | rfl <;>
    (unfold gridAdj; norm_num)

theorem mid_ne_n {c d : ℤ × ℤ} (hd : d ∈ carveDirs) :
    (c.1 + d.1 / 2, c.2 + d.2 / 2) ≠ (c.1 + d.1, c.2 + d.2) := by
  rcases carveDirs_cases hd with rfl | rfl | rfl | rfl <;>
    (simp only [Prod.ext_iff]; norm_num)

theorem c_ne_n {c d : ℤ × ℤ} (hd : d ∈ carveDirs) :
    c ≠ (c.1 + d.1, c.2 + d.2) := by
  rcases carveDirs_cases hd with rfl | rfl | rfl | rfl <;>
    (intro hcne; rw [Prod.ext_iff] at hcne; omega)

theorem c_ne_mid {c d : ℤ × ℤ} (hd : d ∈ carveDirs) :
    c ≠ (c.1 + d.1 / 2, c.2 + d.2 / 2) := by
  rcases carveDirs_cases hd with rfl | rfl | rfl | rfl <;>
    (intro hcne; rw [Prod.ext_iff] at hcne; omega)

/-- The 4-neighbours of the intervening wall cell are the two rooms it
connects and two cells with both coordinates even. -/
theorem adj_mid_cases {w h : ℤ} {c d y : ℤ × ℤ} (hc : IsRoomCell w h c)
    (hd : d ∈ carveDirs)
    (hadj : gridAdj (c.1 + d.1 / 2, c.2 + d.2 / 2) y) :
    y = c ∨ y = (c.1 + d.1, c.2 + d.2) ∨ (y.1 % 2 = 0 ∧ y.2 % 2 = 0) := by
  unfold IsRoomCell at hc
  rcases carveDirs_cases hd with rfl | rfl | rfl | rfl <;>
    (have hcase := gridAdj_cases hadj
     simp only [Prod.ext_iff]
     norm_num at hcase ⊢ <;> omega)

/-- No open cell has both coordinates even. -/
theorem evenEven_not_open {w h : ℤ} {op : List (ℤ × ℤ)} {x : ℤ × ℤ}
    (hpar : CarveParity w h op) (hx : x ∈ op) :
    ¬ (x.1 % 2 = 0 ∧ x.2 % 2 = 0) := by
  rcases hpar x hx with hroom | hmid
  · unfold IsRoomCell at hroom
    omega
  · unfold IsMidCell at hmid
    omega

/-! ## Counting lemmas for the carve fuel -/

theorem closedCount_mono {w h : ℤ} {op op' : List (ℤ × ℤ)}
    (hsub : ∀ x ∈ op, x ∈ op') :
    closedCount w h op' ≤ closedCount w h op := by
  apply Finset.card_le_card
  intro x hx
  rw [Finset.mem_filter] at hx ⊢
  exact ⟨hx.1, fun hmem => hx.2 (hsub x hmem)⟩

theorem closedCount_cons_lt {w h : ℤ} {op : List (ℤ × ℤ)} {c : ℤ × ℤ}
    (hc : c ∈ rect w h) (hnc : c ∉ op) :
    closedCount w h (c :: op) < closedCount w h op := by
  apply Finset.card_lt_card
  constructor
  · intro x hx
    rw [Finset.mem_filter] at hx ⊢
    exact ⟨hx.1, fun hmem => hx.2 (List.mem_cons_of_mem c hmem)⟩
  · intro hsup
    have hcmem : c ∈ (rect w h).filter (fun x => x ∉ op) :=
      Finset.mem_filter.mpr ⟨hc, hnc⟩
    have := hsup hcmem
    rw [Finset.mem_filter] at this
    exact this.2 (List.mem_cons_self c op)

theorem goodRoom_mono {w h : ℤ} {op op' : List (ℤ × ℤ)} {x : ℤ × ℤ}
    (hg : GoodRoom w h op x) (hsub : ∀ y ∈ op, y ∈ op') :
    GoodRoom w h op' x :=
  fun d hd hroom => hsub _ (hg d hd hroom)

theorem room_ne_mid {w h : ℤ} {x : ℤ × ℤ} (hroom : IsRoomCell w h x)
    (hmid : IsMidCell w h x) : False := by
  unfold IsRoomCell at hroom
  unfold IsMidCell at hmid
  omega

/-! ## The carve loop specification -/

/-- Specification of the `for dx, dy in directions` loop of `_carve_path`:
assuming the specification of the recursive calls (`CellSpec fuel`), the
loop preserves the carve invariants, extends the open set, and ends with
every in-grid 2-step target of a processed direction open. -/
theorem carveGo_spec (w h : ℤ) (perms : ℕ → List (ℤ × ℤ)) (hw : w % 2 = 1)
    (hh : h % 2 = 1) (fuel : ℕ) (hcell : CellSpec w h perms fuel)
    (c : ℤ × ℤ) (hroom : IsRoomCell w h c) :
    ∀ dl : List (ℤ × ℤ), (∀ d ∈ dl, d ∈ carveDirs) →
    ∀ (st2 : CarveState) (par2 : ℤ × ℤ → ℤ × ℤ) (rk2 : ℤ × ℤ → ℕ),
      c ∈ st2.op → (1, 1) ∈ st2.op →
      CarveParity w h st2.op →
      ParInv st2.op (1, 1) par2 rk2 →
      MidRoomsOpen w h st2.op →
      closedCount w h st2.op + 1 ≤ fuel →
      ∀ res : CarveState,
        res = dl.foldl
          (fun st2 d =>
            let n : ℤ × ℤ := (c.1 + d.1, c.2 + d.2)
            if 0 ≤ n.1 ∧ n.1 < w ∧ 0 ≤ n.2 ∧ n.2 < h ∧ n ∉ st2.op then
              carveCell w h perms fuel n
                ⟨(c.1 + d.1 / 2, c.2 + d.2 / 2) :: st2.op, st2.k⟩
            else st2) st2 →
        (∀ x ∈ st2.op, x ∈ res.op) ∧
        closedCount w h res.op + 1 ≤ fuel ∧
        ∃ (par' : ℤ × ℤ → ℤ × ℤ) (rk' : ℤ × ℤ → ℕ),
          (∀ x : ℤ × ℤ, x ∈ st2.op → par' x = par2 x ∧ rk' x = rk2 x) ∧
          CarveParity w h res.op ∧
          ParInv res.op (1, 1) par' rk' ∧
          MidRoomsOpen w h res.op ∧
          (∀ d ∈ dl, IsRoomCell w h (c.1 + d.1, c.2 + d.2) →
            (c.1 + d.1, c.2 + d.2) ∈ res.op) ∧
          (∀ x ∈ res.op, x ∉ st2.op → IsRoomCell w h x →
            GoodRoom w h res.op x) := by
  intro dl
  induction dl with
  | nil =>
    intro _ st2 par2 rk2 hc2 hroot2 hpar2 hparinv2 hmro2 hfuel2 res hres
    rw [List.foldl_nil] at hres
    subst hres
    refine ⟨fun x hx => hx, hfuel2, par2, rk2, fun x _ => ⟨rfl, rfl⟩, hpar2,
      hparinv2, hmro2, by simp, fun x hx hnx _ => absurd hx hnx⟩
  | cons d rest ihdl =>
    intro hdl st2 par2 rk2 hc2 hroot2 hpar2 hparinv2 hmro2 hfuel2 res hres
    have hd : d ∈ carveDirs := hdl d (List.mem_cons_self d rest)
    have hrest : ∀ d' ∈ rest, d' ∈ carveDirs := fun d' hd' =>
      hdl d' (List.mem_cons_of_mem d hd')
    rw [List.foldl_cons] at hres
    by_cases hcond : 0 ≤ c.1 + d.1 ∧ c.1 + d.1 < w ∧ 0 ≤ c.2 + d.2 ∧
        c.2 + d.2 < h ∧ (c.1 + d.1, c.2 + d.2) ∉ st2.op
    · -- the target is in bounds and unvisited: recurse into it
      simp only [] at hres
      rw [if_pos hcond] at hres
      have hn_inGrid : inGrid w h (c.1 + d.1, c.2 + d.2) :=
        ⟨hcond.1, hcond.2.1, hcond.2.2.1, hcond.2.2.2.1⟩
      have hnroom : IsRoomCell w h (c.1 + d.1, c.2 + d.2) :=
        roomStep_room hw hh hroom hd hn_inGrid
      have hnno : (c.1 + d.1, c.2 + d.2) ∉ st2.op := hcond.2.2.2.2
      have hmidmid : IsMidCell w h (c.1 + d.1 / 2, c.2 + d.2 / 2) :=
        mid_is_mid hroom hd hnroom
      have hmidno : (c.1 + d.1 / 2, c.2 + d.2 / 2) ∉ st2.op := fun hmem =>
        hnno (hmro2 _ hmem hmidmid _ (adj_mid_n hd) hnroom)
      have hne_nm : (c.1 + d.1, c.2 + d.2) ≠ (c.1 + d.1 / 2, c.2 + d.2 / 2) :=
        (mid_ne_n hd).symm
      have hnroot : (c.1 + d.1, c.2 + d.2) ≠ (1, 1) := fun heq =>
        hnno (heq ▸ hroot2)
      have hmidroot : (c.1 + d.1 / 2, c.2 + d.2 / 2) ≠ (1, 1) := fun heq =>
        hmidno (heq ▸ hroot2)
      have hcn : c ≠ (c.1 + d.1, c.2 + d.2) := c_ne_n hd
      have hcm : c ≠ (c.1 + d.1 / 2, c.2 + d.2 / 2) := c_ne_mid hd
      obtain ⟨hI2, hI3⟩ := hparinv2
      -- the state with the intervening wall cell opened
      set st3 : CarveState := ⟨(c.1 + d.1 / 2, c.2 + d.2 / 2) :: st2.op, st2.k⟩
        with hst3_def
      set par3 : ℤ × ℤ → ℤ × ℤ := fun z =>
        if z = (c.1 + d.1, c.2 + d.2) then (c.1 + d.1 / 2, c.2 + d.2 / 2)
        else if z = (c.1 + d.1 / 2, c.2 + d.2 / 2) then c
        else par2 z with hpar3_def
      set rk3 : ℤ × ℤ → ℕ := fun z =>
        if z = (c.1 + d.1, c.2 + d.2) then rk2 c + 2
        else if z = (c.1 + d.1 / 2, c.2 + d.2 / 2) then rk2 c + 1
        else rk2 z with hrk3_def
      have hpar3n : par3 (c.1 + d.1, c.2 + d.2) = (c.1 + d.1 / 2, c.2 + d.2 / 2) := by
        rw [hpar3_def]
        simp
      have hpar3m : par3 (c.1 + d.1 / 2, c.2 + d.2 / 2) = c := by
        rw [hpar3_def]
        simp [mid_ne_n hd]
      have hpar3old : ∀ z : ℤ × ℤ, z ≠ (c.1 + d.1, c.2 + d.2) →
          z ≠ (c.1 + d.1 / 2, c.2 + d.2 / 2) → par3 z = par2 z := by
        intro z h1 h2
        rw [hpar3_def]
        simp [h1, h2]
      have hrk3n : rk3 (c.1 + d.1, c.2 + d.2) = rk2 c + 2 := by
        rw [hrk3_def]
        simp
      have hrk3m : rk3 (c.1 + d.1 / 2, c.2 + d.2 / 2) = rk2 c + 1 := by
        rw [hrk3_def]
        simp [mid_ne_n hd]
      have hrk3old : ∀ z : ℤ × ℤ, z ≠ (c.1 + d.1, c.2 + d.2) →
          z ≠ (c.1 + d.1 / 2, c.2 + d.2 / 2) → rk3 z = rk2 z := by
        intro z h1 h2
        rw [hrk3_def]
        simp [h1, h2]
      have hrk3c : rk3 c = rk2 c := hrk3old c hcn hcm
      -- memberships in st3
      have hmem3 : ∀ z ∈ st2.op, z ∈ st3.op := fun z hz =>
        List.mem_cons_of_mem _ hz
      have hc3 : c ∈ st3.op := hmem3 c hc2
      have hroot3 : (1, 1) ∈ st3.op := hmem3 _ hroot2
      have hmid3 : (c.1 + d.1 / 2, c.2 + d.2 / 2) ∈ st3.op :=
        List.mem_cons_self _ _
      have hnno3 : (c.1 + d.1, c.2 + d.2) ∉ st3.op := by
        intro hmem
        rcases List.mem_cons.mp hmem with heq | hmem'
        · exact hne_nm heq
        · exact hnno hmem'
      have hmem3_cases : ∀ z ∈ st3.op,
          z = (c.1 + d.1 / 2, c.2 + d.2 / 2) ∨ z ∈ st2.op := fun z hz =>
        List.mem_cons.mp hz
      -- invariants of st3 with par3, rk3
      have hpar3' : CarveParity w h st3.op := by
        intro x hx
        rcases hmem3_cases x hx with rfl | hx'
        · exact Or.inr hmidmid
        · exact hpar2 x hx'
      have hI2_3 : ∀ x ∈ st3.op, x ≠ (1, 1) →
          par3 x ∈ st3.op ∧ gridAdj (par3 x) x ∧ rk3 (par3 x) < rk3 x := by
        intro x hx hxroot
        rcases hmem3_cases x hx with rfl | hx'
        · rw [hpar3m, hrk3m, hrk3c]
          exact ⟨hc3, adj_c_mid hd, by omega⟩
        · have hxn : x ≠ (c.1 + d.1, c.2 + d.2) := fun heq => hnno (heq ▸ hx')
          have hxm : x ≠ (c.1 + d.1 / 2, c.2 + d.2 / 2) := fun heq =>
            hmidno (heq ▸ hx')
          rw [hpar3old x hxn hxm, hrk3old x hxn hxm]
          obtain ⟨hpx, hadj, hrk⟩ := hI2 x hx' hxroot
          have hpxn : par2 x ≠ (c.1 + d.1, c.2 + d.2) := fun heq =>
            hnno (heq ▸ hpx)
          have hpxm : par2 x ≠ (c.1 + d.1 / 2, c.2 + d.2 / 2) := fun heq =>
            hmidno (heq ▸ hpx)
          rw [hrk3old _ hpxn hpxm]
          exact ⟨hmem3 _ hpx, hadj, hrk⟩
      have hI3_3 : ∀ x ∈ st3.op, ∀ y ∈ st3.op, gridAdj x y →
          (x ≠ (1, 1) ∧ par3 x = y) ∨ (y ≠ (1, 1) ∧ par3 y = x) := by
        intro x hx y hy hadj
        rcases hmem3_cases x hx with rfl | hx'
        · rcases hmem3_cases y hy with rfl | hy'
          · exact absurd hadj (gridAdj_irrefl _)
          · rcases adj_mid_cases hroom hd hadj with rfl | rfl | hee
            · exact Or.inl ⟨hmidroot, hpar3m⟩
            · exact absurd hy' hnno
            · exact absurd hee (evenEven_not_open hpar2 hy')
        · rcases hmem3_cases y hy with rfl | hy'
          · rcases adj_mid_cases hroom hd (gridAdj_symm hadj) with rfl | rfl | hee
            · exact Or.inr ⟨hmidroot, hpar3m⟩
            · exact absurd hx' hnno
            · exact absurd hee (evenEven_not_open hpar2 hx')
          · have hxn : x ≠ (c.1 + d.1, c.2 + d.2) := fun heq => hnno (heq ▸ hx')
            have hxm : x ≠ (c.1 + d.1 / 2, c.2 + d.2 / 2) := fun heq =>
              hmidno (heq ▸ hx')
            have hyn : y ≠ (c.1 + d.1, c.2 + d.2) := fun heq => hnno (heq ▸ hy')
            have hym : y ≠ (c.1 + d.1 / 2, c.2 + d.2 / 2) := fun heq =>
              hmidno (heq ▸ hy')
            rw [hpar3old x hxn hxm, hpar3old y hyn hym]
            exact hI3 x hx' y hy' hadj
      have hmre3 : MidRoomsOpenExcept w h (c.1 + d.1, c.2 + d.2) st3.op := by
        intro m hm hmmid r hadj hrroom hrne
        rcases hmem3_cases m hm with rfl | hm'
        · rcases adj_mid_cases hroom hd hadj with rfl | rfl | hee
          · exact hc3
          · exact absurd rfl hrne
          · unfold IsRoomCell at hrroom
            omega
        · exact hmem3 _ (hmro2 m hm' hmmid r hadj hrroom)
      have hHC3 : ∀ y ∈ st3.op, gridAdj (c.1 + d.1, c.2 + d.2) y →
          (c.1 + d.1, c.2 + d.2) ≠ (1, 1) ∧ y = par3 (c.1 + d.1, c.2 + d.2) := by
        intro y hy hadj
        rw [hpar3n]
        refine ⟨hnroot, ?_⟩
        rcases hmem3_cases y hy with rfl | hy'
        · rfl
        · rcases hpar2 y hy' with hyroom | hymid
          · exact absurd hadj (room_not_adj_room hnroom hyroom)
          · exact absurd (hmro2 y hy' hymid _ (gridAdj_symm hadj) hnroom) hnno
      have hHR3 : (c.1 + d.1, c.2 + d.2) ≠ (1, 1) →
          par3 (c.1 + d.1, c.2 + d.2) ∈ st3.op ∧
          gridAdj (par3 (c.1 + d.1, c.2 + d.2)) (c.1 + d.1, c.2 + d.2) ∧
          rk3 (par3 (c.1 + d.1, c.2 + d.2)) < rk3 (c.1 + d.1, c.2 + d.2) := by
        intro _
        rw [hpar3n, hrk3m, hrk3n]
        exact ⟨hmid3, adj_mid_n hd, by omega⟩
      have hmid_rect : (c.1 + d.1 / 2, c.2 + d.2 / 2) ∈ rect w h :=
        mid_mem_rect hmidmid
      have hfuel3 : closedCount w h st3.op + 1 ≤ fuel := by
        have hlt := closedCount_cons_lt hmid_rect hmidno
        show closedCount w h ((c.1 + d.1 / 2, c.2 + d.2 / 2) :: st2.op) + 1 ≤ fuel
        omega
      -- apply the recursive-call specification
      obtain ⟨hmono4, hn4, par4, rk4, hframe4, hpar4, hparinv4, hmro4, hO64⟩ :=
        hcell (c.1 + d.1, c.2 + d.2) st3 par3 rk3 hnroom hnno3 (Or.inl hroot3)
          hpar3' ⟨hI2_3, hI3_3⟩ hmre3 hHC3 hHR3 hfuel3
      -- the loop continues from st4
      have hc4 : c ∈ (carveCell w h perms fuel (c.1 + d.1, c.2 + d.2) st3).op :=
        hmono4 _ hc3
      have hroot4 : (1, 1) ∈ (carveCell w h perms fuel (c.1 + d.1, c.2 + d.2) st3).op :=
        hmono4 _ hroot3
      have hfuel4 : closedCount w h
          (carveCell w h perms fuel (c.1 + d.1, c.2 + d.2) st3).op + 1 ≤ fuel := by
        have hmono := closedCount_mono (w := w) (h := h) hmono4
        omega
      obtain ⟨hmonoF, hfuelF, parF, rkF, hframeF, hparF, hparinvF, hmroF, htgtF, hO6F⟩ :=
        ihdl hrest (carveCell w h perms fuel (c.1 + d.1, c.2 + d.2) st3)
          par4 rk4 hc4 hroot4 hpar4 hparinv4 hmro4 hfuel4 res hres
      -- compose the conclusions
      have hmono24 : ∀ x ∈ st2.op,
          x ∈ (carveCell w h perms fuel (c.1 + d.1, c.2 + d.2) st3).op :=
        fun x hx => hmono4 _ (hmem3 _ hx)
      have hmono2F : ∀ x ∈ st2.op, x ∈ res.op := fun x hx =>
        hmonoF _ (hmono24 x hx)
      refine ⟨hmono2F, hfuelF, parF, rkF, ?_, hparF, hparinvF, hmroF, ?_, ?_⟩
      · intro x hx
        have hxn : x ≠ (c.1 + d.1, c.2 + d.2) := fun heq => hnno (heq ▸ hx)
        have hxm : x ≠ (c.1 + d.1 / 2, c.2 + d.2 / 2) := fun heq =>
          hmidno (heq ▸ hx)
        have h1 := hframeF x (hmono24 x hx)
        have h2 := hframe4 x (Or.inl (hmem3 x hx))
        rw [h1.1, h1.2, h2.1, h2.2, hpar3old x hxn hxm, hrk3old x hxn hxm]
        exact ⟨rfl, rfl⟩
      · intro d' hd' hd'room
        rcases List.mem_cons.mp hd' with rfl | hd''
        · exact hmonoF _ hn4
        · exact htgtF d' hd'' hd'room
      · intro x hx hxno hxroom
        by_cases hx4 : x ∈ (carveCell w h perms fuel (c.1 + d.1, c.2 + d.2) st3).op
        · have hxno3 : x ∉ st3.op := by
            intro hmem
            rcases hmem3_cases x hmem with rfl | hmem'
            · exact room_ne_mid hxroom hmidmid
            · exact hxno hmem'
          exact goodRoom_mono (hO64 x hx4 hxno3 hxroom) hmonoF
        · exact hO6F x hx hx4 hxroom
    · -- the target is out of bounds or already open: skip
      simp only [] at hres
      rw [if_neg hcond] at hres
      obtain ⟨hmonoF, hfuelF, parF, rkF, hframeF, hparF, hparinvF, hmroF, htgtF, hO6F⟩ :=
        ihdl hrest st2 par2 rk2 hc2 hroot2 hpar2 hparinv2 hmro2 hfuel2 res hres
      refine ⟨hmonoF, hfuelF, parF, rkF, hframeF, hparF, hparinvF, hmroF, ?_, hO6F⟩
      intro d' hd' hd'room
      rcases List.mem_cons.mp hd' with rfl | hd''
      · have hgrid := room_in_grid hd'room
        obtain ⟨hb1, hb2, hb3, hb4⟩ := hgrid
        have hmem : (c.1 + d'.1, c.2 + d'.2) ∈ st2.op := by
          by_contra hnm
          exact hcond ⟨hb1, hb2, hb3, hb4, hnm⟩
        exact hmonoF _ hmem
      · exact htgtF d' hd'' hd'room

/-- The carve specification holds at every fuel. -/
theorem cellSpec_all (w h : ℤ) (perms : ℕ → List (ℤ × ℤ)) (hw : w % 2 = 1)
    (hh : h % 2 = 1) (hp : ShufflesOf perms) :
    ∀ fuel : ℕ, CellSpec w h perms fuel := by
  intro fuel
  induction fuel with
  | zero =>
    intro c st par rk _ _ _ _ _ _ _ _ hfuel
    omega
  | succ fuel ih =>
    intro c st par rk hroomc hcno hroot hpar hparinv hmre hHC hHR hfuel
    obtain ⟨hI2, hI3⟩ := hparinv
    have hunfold : carveCell w h perms (fuel + 1) c st =
        List.foldl
          (fun st2 d =>
            let n : ℤ × ℤ := (c.1 + d.1, c.2 + d.2)
            if 0 ≤ n.1 ∧ n.1 < w ∧ 0 ≤ n.2 ∧ n.2 < h ∧ n ∉ st2.op then
              carveCell w h perms fuel n
                ⟨(c.1 + d.1 / 2, c.2 + d.2 / 2) :: st2.op, st2.k⟩
            else st2) (⟨c :: st.op, st.k + 1⟩ : CarveState) (perms st.k) := rfl
    have hmem1 : ∀ z ∈ st.op, z ∈ (⟨c :: st.op, st.k + 1⟩ : CarveState).op :=
      fun z hz => List.mem_cons_of_mem _ hz
    have hc1 : c ∈ (⟨c :: st.op, st.k + 1⟩ : CarveState).op :=
      List.mem_cons_self _ _
    have hroot1 : (1, 1) ∈ (⟨c :: st.op, st.k + 1⟩ : CarveState).op := by
      rcases hroot with hmem | heq
      · exact hmem1 _ hmem
      · rw [← heq]
        exact hc1
    have hcases1 : ∀ z ∈ (⟨c :: st.op, st.k + 1⟩ : CarveState).op,
        z = c ∨ z ∈ st.op := fun z hz => List.mem_cons.mp hz
    have hpar1 : CarveParity w h (⟨c :: st.op, st.k + 1⟩ : CarveState).op := by
      intro x hx
      rcases hcases1 x hx with rfl | hx'
      · exact Or.inl hroomc
      · exact hpar x hx'
    have hparinv1 : ParInv (⟨c :: st.op, st.k + 1⟩ : CarveState).op (1, 1) par rk := by
      constructor
      · intro x hx hxroot
        rcases hcases1 x hx with rfl | hx'
        · obtain ⟨hpc, hadj, hrk⟩ := hHR hxroot
          exact ⟨hmem1 _ hpc, hadj, hrk⟩
        · obtain ⟨hpx, hadj, hrk⟩ := hI2 x hx' hxroot
          exact ⟨hmem1 _ hpx, hadj, hrk⟩
      · intro x hx y hy hadj
        rcases hcases1 x hx with rfl | hx'
        · rcases hcases1 y hy with rfl | hy'
          · exact absurd hadj (gridAdj_irrefl _)
          · obtain ⟨hne, heq⟩ := hHC y hy' hadj
            exact Or.inl ⟨hne, heq.symm⟩
        · rcases hcases1 y hy with rfl | hy'
          · obtain ⟨hne, heq⟩ := hHC x hx' (gridAdj_symm hadj)
            exact Or.inr ⟨hne, heq.symm⟩
          · exact hI3 x hx' y hy' hadj
    have hmro1 : MidRoomsOpen w h (⟨c :: st.op, st.k + 1⟩ : CarveState).op := by
      intro m hm hmmid r hadj hrroom
      rcases hcases1 m hm with rfl | hm'
      · exact absurd hmmid (fun hmid => room_ne_mid hroomc hmid)
      · by_cases hrc : r = c
        · rw [hrc]
          exact hc1
        · exact hmem1 _ (hmre m hm' hmmid r hadj hrroom hrc)
    have hfuel1 : closedCount w h (⟨c :: st.op, st.k + 1⟩ : CarveState).op + 1 ≤ fuel := by
      have hlt := closedCount_cons_lt (room_mem_rect hroomc) hcno
      show closedCount w h (c :: st.op) + 1 ≤ fuel
      omega
    have hdl : ∀ d ∈ perms st.k, d ∈ carveDirs := fun d hd =>
      (hp st.k).mem_iff.mp hd
    obtain ⟨hmono, hfuelR, par', rk', hframe, hparR, hparinvR, hmroR, htgt, hO6⟩ :=
      carveGo_spec w h perms hw hh fuel ih c hroomc (perms st.k) hdl
        ⟨c :: st.op, st.k + 1⟩ par rk hc1 hroot1 hpar1 hparinv1 hmro1 hfuel1
        (carveCell w h perms (fuel + 1) c st) hunfold
    refine ⟨fun x hx => hmono _ (hmem1 x hx), hmono _ hc1, par', rk', ?_,
      hparR, hparinvR, hmroR, ?_⟩
    · intro x hx
      rcases hx with hx' | rfl
      · exact hframe x (hmem1 _ hx')
      · exact hframe x hc1
    · intro x hx hxno hxroom
      by_cases hxc : x = c
      · subst hxc
        intro d hd hdroom
        exact htgt d ((hp st.k).mem_iff.mpr hd) hdroom
      · refine hO6 x hx ?_ hxroom
        intro hmem
        rcases hcases1 x hmem with heq | hmem'
        · exact hxc heq
        · exact hxno hmem'

/-! ## Counting and bounds corollaries -/

theorem rect_card (w h : ℤ) (hw : 0 ≤ w) (hh : 0 ≤ h) :
    (rect w h).card = (w * h).toNat := by
  rw [rect, Finset.card_product, Int.card_Icc, Int.card_Icc]
  have h1 : w - 1 + 1 - 0 = w := by ring
  have h2 : h - 1 + 1 - 0 = h := by ring
  rw [h1, h2]
  obtain ⟨a, rfl⟩ := Int.eq_ofNat_of_zero_le hw
  obtain ⟨b, rfl⟩ := Int.eq_ofNat_of_zero_le hh
  rw [← Nat.cast_mul, Int.toNat_natCast, Int.toNat_natCast, Int.toNat_natCast]

theorem mem_rect_iff {w h : ℤ} {c : ℤ × ℤ} : c ∈ rect w h ↔ inGrid w h c := by
  simp only [rect, Finset.mem_product, Finset.mem_Icc, inGrid]
  omega

theorem closedCount_nil (w h : ℤ) : closedCount w h [] = (rect w h).card := by
  unfold closedCount
  simp

theorem closedCount_cons_eq {w h : ℤ} {op : List (ℤ × ℤ)} {c : ℤ × ℤ}
    (hc : c ∈ rect w h) (hnc : c ∉ op) :
    closedCount w h (c :: op) + 1 = closedCount w h op := by
  unfold closedCount
  have hval : (rect w h).filter (fun x => x ∉ c :: op) =
      ((rect w h).filter (fun x => x ∉ op)).erase c := by
    ext x
    simp only [Finset.mem_erase, Finset.mem_filter, List.mem_cons]
    tauto
  rw [hval, Finset.card_erase_of_mem (Finset.mem_filter.mpr ⟨hc, hnc⟩)]
  have hpos : 0 < ((rect w h).filter (fun x => x ∉ op)).card :=
    Finset.card_pos.mpr ⟨c, Finset.mem_filter.mpr ⟨hc, hnc⟩⟩
  omega

theorem carve_bounds {w h : ℤ} {op : List (ℤ × ℤ)} (hpar : CarveParity w h op) :
    ∀ x ∈ op, 1 ≤ x.1 ∧ x.1 ≤ w - 2 ∧ 1 ≤ x.2 ∧ x.2 ≤ h - 2 := by
  intro x hx
  rcases hpar x hx with hr | hm
  · unfold IsRoomCell at hr
    omega
  · unfold IsMidCell at hm
    omega

/-- Every 4-adjacency is realised by one of the BFS direction steps. -/
theorem adj_exists_bfsDir {a b : ℤ × ℤ} (hadj : gridAdj a b) :
    ∃ d ∈ bfsDirs, b = (a.1 + d.1, a.2 + d.2) := by
  rcases gridAdj_cases hadj with ⟨h1, h2⟩ | ⟨h1, h2⟩ | ⟨h1, h2⟩ | ⟨h1, h2⟩
  · exact ⟨(1, 0), by simp [bfsDirs], by rw [Prod.ext_iff]; constructor <;> simp <;> omega⟩
  · exact ⟨(-1, 0), by simp [bfsDirs], by rw [Prod.ext_iff]; constructor <;> simp <;> omega⟩
  · exact ⟨(0, 1), by simp [bfsDirs], by rw [Prod.ext_iff]; constructor <;> simp <;> omega⟩
  · exact ⟨(0, -1), by simp [bfsDirs], by rw [Prod.ext_iff]; constructor <;> simp <;> omega⟩

/-! ## The carved maze: spanning, parity, rooted structure -/

theorem room_one_one {w h : ℤ} (hw3 : 3 ≤ w) (hh3 : 3 ≤ h) :
    IsRoomCell w h (1, 1) := by
  unfold IsRoomCell
  refine ⟨by norm_num, by norm_num, by norm_num, by omega, by norm_num, by omega⟩

/-- Given the root and the "fully explored" property of every open room,
every room of the grid is open (the carve spans the room lattice). -/
theorem rooms_open_of_goodRooms (w h : ℤ) (op : List (ℤ × ℤ))
    (hroot : (1, 1) ∈ op)
    (hGR : ∀ x ∈ op, IsRoomCell w h x → GoodRoom w h op x) :
    ∀ r : ℤ × ℤ, IsRoomCell w h r → r ∈ op := by
  have key : ∀ nm : ℕ, ∀ r : ℤ × ℤ, IsRoomCell w h r →
      (r.1 + r.2).toNat = nm → r ∈ op := by
    intro nm
    induction nm using Nat.strong_induction_on with
    | _ nm ih =>
      intro r hr hms
      by_cases h11 : r = (1, 1)
      · rw [h11]
        exact hroot
      · have hrr := hr
        unfold IsRoomCell at hrr
        by_cases h1 : 3 ≤ r.1
        · have hr' : IsRoomCell w h (r.1 - 2, r.2) := by
            unfold IsRoomCell
            constructor
            · show (r.1 - 2) % 2 = 1
              omega
            · exact ⟨hrr.2.1, by omega, by omega, by omega, by omega⟩
          have hm' : (((r.1 - 2 : ℤ), r.2).1 + ((r.1 - 2 : ℤ), r.2).2).toNat < nm := by
            simp only []
            omega
          have hin := ih _ hm' (r.1 - 2, r.2) hr' rfl
          have hgood := hGR _ hin hr'
          have heqr : (((r.1 - 2 : ℤ), r.2).1 + (2 : ℤ), ((r.1 - 2 : ℤ), r.2).2 + (0 : ℤ)) = r := by
            rw [Prod.ext_iff]
            constructor
            · show r.1 - 2 + 2 = r.1
              ring
            · show r.2 + 0 = r.2
              ring
          have htgt := hgood (2, 0) (by simp [carveDirs]) (by rw [heqr]; exact hr)
          rw [heqr] at htgt
          exact htgt
        · have h2big : 3 ≤ r.2 := by
            by_contra hlt
            refine h11 ?_
            rw [Prod.ext_iff]
            refine ⟨?_, ?_⟩
            · show r.1 = 1
              omega
            · show r.2 = 1
              omega
          have hr' : IsRoomCell w h (r.1, r.2 - 2) := by
            unfold IsRoomCell
            refine ⟨hrr.1, ?_, by omega, by omega, by omega, by omega⟩
            show (r.2 - 2) % 2 = 1
            omega
          have hm' : ((r.1, (r.2 - 2 : ℤ)).1 + (r.1, (r.2 - 2 : ℤ)).2).toNat < nm := by
            simp only []
            omega
          have hin := ih _ hm' (r.1, r.2 - 2) hr' rfl
          have hgood := hGR _ hin hr'
          have heqr : ((r.1, (r.2 - 2 : ℤ)).1 + (0 : ℤ), (r.1, (r.2 - 2 : ℤ)).2 + (2 : ℤ)) = r := by
            rw [Prod.ext_iff]
            constructor
            · show r.1 + 0 = r.1
              ring
            · show r.2 - 2 + 2 = r.2
              ring
          have htgt := hgood (0, 2) (by simp [carveDirs]) (by rw [heqr]; exact hr)
          rw [heqr] at htgt
          exact htgt
  exact fun r hr => key _ r hr rfl

/-- The top-level carve run: its result contains the start room, satisfies
parity, spans every room, and carries a rooted parent structure. -/
theorem carve_top (w h : ℤ) (perms : ℕ → List (ℤ × ℤ)) (hw : w % 2 = 1)
    (hh : h % 2 = 1) (hw3 : 3 ≤ w) (hh3 : 3 ≤ h) (hp : ShufflesOf perms) :
    (1, 1) ∈ (carveCell w h perms (mazeFuel w h) (1, 1) ⟨[], 0⟩).op ∧
    CarveParity w h (carveCell w h perms (mazeFuel w h) (1, 1) ⟨[], 0⟩).op ∧
    (∀ r : ℤ × ℤ, IsRoomCell w h r →
      r ∈ (carveCell w h perms (mazeFuel w h) (1, 1) ⟨[], 0⟩).op) ∧
    ∃ (par : ℤ × ℤ → ℤ × ℤ) (rk : ℤ × ℤ → ℕ),
      ParInv (carveCell w h perms (mazeFuel w h) (1, 1) ⟨[], 0⟩).op (1, 1) par rk := by
  have hroom11 : IsRoomCell w h (1, 1) := room_one_one hw3 hh3
  have hfuel : closedCount w h ([] : List (ℤ × ℤ)) + 1 ≤ mazeFuel w h := by
    rw [closedCount_nil, rect_card w h (by omega) (by omega)]
    unfold mazeFuel
    omega
  obtain ⟨hmono, hc, par, rk, hframe, hparity, hparinv, hmro, hO6⟩ :=
    cellSpec_all w h perms hw hh hp (mazeFuel w h) (1, 1)
      ⟨[], 0⟩ (fun _ => (0, 0)) (fun _ => 0) hroom11
      (List.not_mem_nil _) (Or.inr rfl)
      (fun x hx => absurd hx (List.not_mem_nil x))
      ⟨fun x hx => absurd hx (List.not_mem_nil x),
       fun x hx => absurd hx (List.not_mem_nil x)⟩
      (fun m hm => absurd hm (List.not_mem_nil m))
      (fun y hy => absurd hy (List.not_mem_nil y))
      (fun hne => absurd rfl hne) hfuel
  have hGR : ∀ x ∈ (carveCell w h perms (mazeFuel w h) (1, 1) ⟨[], 0⟩).op,
      IsRoomCell w h x →
      GoodRoom w h (carveCell w h perms (mazeFuel w h) (1, 1) ⟨[], 0⟩).op x :=
    fun x hx hxr => hO6 x hx (List.not_mem_nil x) hxr
  exact ⟨hc, hparity,
    rooms_open_of_goodRooms w h _ hc hGR, par, rk, hparinv⟩

/-! ## Reachability from the rooted structure -/

theorem reach_to_root {op : List (ℤ × ℤ)} {root : ℤ × ℤ}
    {par : ℤ × ℤ → ℤ × ℤ} {rk : ℤ × ℤ → ℕ} (hparinv : ParInv op root par rk) :
    ∀ x ∈ op, Reach op x root := by
  have key : ∀ n : ℕ, ∀ x ∈ op, rk x ≤ n → Reach op x root := by
    intro n
    induction n with
    | zero =>
      intro x hx hrk
      by_cases hxr : x = root
      · rw [hxr]
        exact Relation.ReflTransGen.refl
      · obtain ⟨-, -, hlt⟩ := hparinv.1 x hx hxr
        omega
    | succ n ihn =>
      intro x hx hrk
      by_cases hxr : x = root
      · rw [hxr]
        exact Relation.ReflTransGen.refl
      · obtain ⟨hpx, hadj, hlt⟩ := hparinv.1 x hx hxr
        exact Relation.ReflTransGen.head ⟨hx, hpx, gridAdj_symm hadj⟩
          (ihn (par x) hpx (by omega))
  exact fun x hx => key (rk x) x hx le_rfl

theorem reach_symm {op : List (ℤ × ℤ)} {a b : ℤ × ℤ} (hr : Reach op a b) :
    Reach op b a :=
  Relation.ReflTransGen.symmetric
    (fun _ _ hstep => ⟨hstep.2.1, hstep.1, gridAdj_symm hstep.2.2⟩) hr

/-! ## Attaching the entry and exit openings -/

/-- Forcing open the entry and the exit attaches two pendant cells to the
carved tree: the extended open set still carries a rooted parent
structure, lies in the grid rectangle, and connects entry to exit. -/
theorem extend_structure (w h : ℤ) (hw : w % 2 = 1) (hh : h % 2 = 1)
    (hw3 : 3 ≤ w) (hh3 : 3 ≤ h) (cop : List (ℤ × ℤ))
    (hroot : (1, 1) ∈ cop) (hparity : CarveParity w h cop)
    (hrooms : ∀ r : ℤ × ℤ, IsRoomCell w h r → r ∈ cop)
    (par : ℤ × ℤ → ℤ × ℤ) (rk : ℤ × ℤ → ℕ)
    (hparinv : ParInv cop (1, 1) par rk) :
    (∀ x ∈ ((1, 0) :: (w - 2, h - 1) :: cop), x ∈ rect w h) ∧
    Reach ((1, 0) :: (w - 2, h - 1) :: cop) (1, 0) (w - 2, h - 1) ∧
    ∃ (par' : ℤ × ℤ → ℤ × ℤ) (rk' : ℤ × ℤ → ℕ),
      ParInv ((1, 0) :: (w - 2, h - 1) :: cop) (1, 1) par' rk' := by
  have hcb := carve_bounds hparity
  have hentry_no : ((1 : ℤ), (0 : ℤ)) ∉ cop := by
    intro hmem
    have hb := (hcb _ hmem).2.2.1
    simp only [] at hb
    omega
  have hexit_no : ((w - 2 : ℤ), (h - 1 : ℤ)) ∉ cop := by
    intro hmem
    have hb := (hcb _ hmem).2.2.2
    simp only [] at hb
    omega
  have hmem_cases : ∀ y ∈ ((1, 0) :: (w - 2, h - 1) :: cop),
      y = ((1 : ℤ), (0 : ℤ)) ∨ y = ((w - 2 : ℤ), (h - 1 : ℤ)) ∨ y ∈ cop := by
    intro y hy
    rcases List.mem_cons.mp hy with heq | hy2
    · exact Or.inl heq
    · rcases List.mem_cons.mp hy2 with heq | hmem
      · exact Or.inr (Or.inl heq)
      · exact Or.inr (Or.inr hmem)
  have hsub : ∀ x ∈ cop, x ∈ ((1, 0) :: (w - 2, h - 1) :: cop) :=
    fun x hx => List.mem_cons_of_mem _ (List.mem_cons_of_mem _ hx)
  have hentry_mem : ((1 : ℤ), (0 : ℤ)) ∈ ((1, 0) :: (w - 2, h - 1) :: cop) :=
    List.mem_cons_self _ _
  have hexit_mem : ((w - 2 : ℤ), (h - 1 : ℤ)) ∈ ((1, 0) :: (w - 2, h - 1) :: cop) :=
    List.mem_cons_of_mem _ (List.mem_cons_self _ _)
  have hroot_mem : ((1 : ℤ), (1 : ℤ)) ∈ ((1, 0) :: (w - 2, h - 1) :: cop) :=
    hsub _ hroot
  -- component facts of membership, for omega
  have hyfacts : ∀ y ∈ ((1, 0) :: (w - 2, h - 1) :: cop),
      (y.1 = 1 ∧ y.2 = 0) ∨ (y.1 = w - 2 ∧ y.2 = h - 1) ∨
      (1 ≤ y.1 ∧ y.1 ≤ w - 2 ∧ 1 ≤ y.2 ∧ y.2 ≤ h - 2 ∧
        ¬(y.1 % 2 = 0 ∧ y.2 % 2 = 0)) := by
    intro y hy
    rcases hmem_cases y hy with rfl | rfl | hmem
    · exact Or.inl ⟨rfl, rfl⟩
    · exact Or.inr (Or.inl ⟨rfl, rfl⟩)
    · exact Or.inr (Or.inr ⟨(hcb _ hmem).1, (hcb _ hmem).2.1, (hcb _ hmem).2.2.1,
        (hcb _ hmem).2.2.2, evenEven_not_open hparity hmem⟩)
  have hexitnb_room : IsRoomCell w h (w - 2, h - 2) := by
    unfold IsRoomCell
    refine ⟨?_, ?_, by omega, by omega, by omega, by omega⟩
    · show (w - 2) % 2 = 1
      omega
    · show (h - 2) % 2 = 1
      omega
  have hexitnb_mem : ((w - 2 : ℤ), (h - 2 : ℤ)) ∈ cop := hrooms _ hexitnb_room
  have hadj_root_entry : gridAdj (1, 1) (1, 0) := by
    unfold gridAdj
    decide
  have hadj_exnb_exit : gridAdj (w - 2, h - 2) (w - 2, h - 1) := by
    unfold gridAdj
    simp only []
    omega
  -- neighbour enumeration at the two pendant cells
  have hnb_entry : ∀ y ∈ ((1, 0) :: (w - 2, h - 1) :: cop),
      gridAdj (1, 0) y → y = ((1 : ℤ), (1 : ℤ)) := by
    intro y hy hadj
    have hcases := gridAdj_cases hadj
    simp only [] at hcases
    have hf := hyfacts y hy
    rw [Prod.ext_iff]
    refine ⟨?_, ?_⟩
    · show y.1 = 1
      omega
    · show y.2 = 1
      omega
  have hnb_exit : ∀ y ∈ ((1, 0) :: (w - 2, h - 1) :: cop),
      gridAdj (w - 2, h - 1) y → y = ((w - 2 : ℤ), (h - 2 : ℤ)) := by
    intro y hy hadj
    have hcases := gridAdj_cases hadj
    simp only [] at hcases
    have hf := hyfacts y hy
    rw [Prod.ext_iff]
    refine ⟨?_, ?_⟩
    · show y.1 = w - 2
      omega
    · show y.2 = h - 2
      omega
  -- inequalities between the special cells
  have hne_entry_exit : ((1 : ℤ), (0 : ℤ)) ≠ ((w - 2 : ℤ), (h - 1 : ℤ)) := by
    intro heq
    rw [Prod.ext_iff] at heq
    simp only [] at heq
    omega
  have hne_entry_root : ((1 : ℤ), (0 : ℤ)) ≠ ((1 : ℤ), (1 : ℤ)) := by
    intro heq
    rw [Prod.ext_iff] at heq
    simp only [] at heq
    omega
  have hne_exit_root : ((w - 2 : ℤ), (h - 1 : ℤ)) ≠ ((1 : ℤ), (1 : ℤ)) := by
    intro heq
    rw [Prod.ext_iff] at heq
    simp only [] at heq
    omega
  have hne_root_entry : ((1 : ℤ), (1 : ℤ)) ≠ ((1 : ℤ), (0 : ℤ)) :=
    fun heq => hne_entry_root heq.symm
  have hne_root_exit : ((1 : ℤ), (1 : ℤ)) ≠ ((w - 2 : ℤ), (h - 1 : ℤ)) :=
    fun heq => hne_exit_root heq.symm
  have hne_exnb_entry : ((w - 2 : ℤ), (h - 2 : ℤ)) ≠ ((1 : ℤ), (0 : ℤ)) := by
    intro heq
    rw [Prod.ext_iff] at heq
    simp only [] at heq
    omega
  have hne_exnb_exit : ((w - 2 : ℤ), (h - 2 : ℤ)) ≠ ((w - 2 : ℤ), (h - 1 : ℤ)) := by
    intro heq
    rw [Prod.ext_iff] at heq
    simp only [] at heq
    omega
  -- the extended parent and rank maps
  set par' : ℤ × ℤ → ℤ × ℤ := fun z =>
    if z = (1, 0) then (1, 1)
    else if z = (w - 2, h - 1) then (w - 2, h - 2)
    else par z with hparx_def
  set rk' : ℤ × ℤ → ℕ := fun z =>
    if z = (1, 0) then rk (1, 1) + 1
    else if z = (w - 2, h - 1) then rk (w - 2, h - 2) + 1
    else rk z with hrkx_def
  have hpar'entry : par' (1, 0) = (1, 1) := by
    rw [hparx_def]
    simp
  have hpar'exit : par' (w - 2, h - 1) = (w - 2, h - 2) := by
    rw [hparx_def]
    simp [hne_entry_exit.symm]
  have hpar'old : ∀ z : ℤ × ℤ, z ≠ (1, 0) → z ≠ (w - 2, h - 1) →
      par' z = par z := by
    intro z h1 h2
    rw [hparx_def]
    simp [h1, h2]
  have hrk'entry : rk' (1, 0) = rk (1, 1) + 1 := by
    rw [hrkx_def]
    simp
  have hrk'exit : rk' (w - 2, h - 1) = rk (w - 2, h - 2) + 1 := by
    rw [hrkx_def]
    simp [hne_entry_exit.symm]
  have hrk'old : ∀ z : ℤ × ℤ, z ≠ (1, 0) → z ≠ (w - 2, h - 1) →
      rk' z = rk z := by
    intro z h1 h2
    rw [hrkx_def]
    simp [h1, h2]
  have hcop_ne : ∀ z ∈ cop, z ≠ ((1 : ℤ), (0 : ℤ)) ∧ z ≠ ((w - 2 : ℤ), (h - 1 : ℤ)) :=
    fun z hz => ⟨fun heq => hentry_no (heq ▸ hz), fun heq => hexit_no (heq ▸ hz)⟩
  have hparinv' : ParInv ((1, 0) :: (w - 2, h - 1) :: cop) (1, 1) par' rk' := by
    constructor
    · intro x hx hxroot
      rcases hmem_cases x hx with rfl | rfl | hmem
      · rw [hpar'entry, hrk'entry, hrk'old _ hne_root_entry hne_root_exit]
        exact ⟨hroot_mem, hadj_root_entry, by omega⟩
      · rw [hpar'exit, hrk'exit, hrk'old _ hne_exnb_entry hne_exnb_exit]
        exact ⟨hsub _ hexitnb_mem, hadj_exnb_exit, by omega⟩
      · obtain ⟨hz1, hz2⟩ := hcop_ne x hmem
        rw [hpar'old x hz1 hz2, hrk'old x hz1 hz2]
        obtain ⟨hpx, hadj, hlt⟩ := hparinv.1 x hmem hxroot
        obtain ⟨hp1, hp2⟩ := hcop_ne _ hpx
        rw [hrk'old _ hp1 hp2]
        exact ⟨hsub _ hpx, hadj, hlt⟩
    · intro x hx y hy hadj
      rcases hmem_cases x hx with rfl | rfl | hmemx
      · have hy11 := hnb_entry y hy (hadj)
        subst hy11
        exact Or.inl ⟨hne_entry_root, hpar'entry⟩
      · have hynb := hnb_exit y hy (hadj)
        subst hynb
        exact Or.inl ⟨hne_exit_root, hpar'exit⟩
      · rcases hmem_cases y hy with rfl | rfl | hmemy
        · have hx11 := hnb_entry x hx (gridAdj_symm hadj)
          subst hx11
          exact Or.inr ⟨hne_entry_root, hpar'entry⟩
        · have hxnb := hnb_exit x hx (gridAdj_symm hadj)
          subst hxnb
          exact Or.inr ⟨hne_exit_root, hpar'exit⟩
        · obtain ⟨hx1, hx2⟩ := hcop_ne x hmemx
          obtain ⟨hy1, hy2⟩ := hcop_ne y hmemy
          rw [hpar'old x hx1 hx2, hpar'old y hy1 hy2]
          exact hparinv.2 x hmemx y hmemy hadj
  refine ⟨?_, ?_, par', rk', hparinv'⟩
  · intro x hx
    rw [mem_rect_iff]
    rcases hmem_cases x hx with rfl | rfl | hmem
    · unfold inGrid
      refine ⟨by norm_num, by simp only []; omega, by norm_num, by simp only []; omega⟩
    · unfold inGrid
      refine ⟨by simp only []; omega, by simp only []; omega,
        by simp only []; omega, by simp only []; omega⟩
    · unfold inGrid
      have hb := hcb _ hmem
      exact ⟨by omega, by omega, by omega, by omega⟩
  · have h1 : Reach ((1, 0) :: (w - 2, h - 1) :: cop) (1, 0) (1, 1) :=
      reach_to_root hparinv' _ hentry_mem
    have h2 : Reach ((1, 0) :: (w - 2, h - 1) :: cop) (w - 2, h - 1) (1, 1) :=
      reach_to_root hparinv' _ hexit_mem
    exact h1.trans (reach_symm h2)

/-! ## BFS completeness -/

/-- Bookkeeping facts about one neighbour-expansion pass: old entries and
visits survive, every queued cell is visited, visited cells stay in the
rectangle, fresh visits are queued, processed open in-grid neighbours end
up visited, and the completeness measure
`closedCount + queue length` is preserved exactly. -/
theorem bfsExpand_spec (w h : ℤ) (op : List (ℤ × ℤ)) (c : ℤ × ℤ)
    (p : List (ℤ × ℤ)) :
    ∀ (ds : List (ℤ × ℤ)) (q : List ((ℤ × ℤ) × List (ℤ × ℤ)))
      (v : List (ℤ × ℤ)),
      (∀ e ∈ q, e.1 ∈ v) →
      (∀ x ∈ v, x ∈ rect w h) →
      (∀ e ∈ q, e ∈ (bfsExpand w h op c p ds q v).1) ∧
      (∀ x ∈ v, x ∈ (bfsExpand w h op c p ds q v).2) ∧
      (∀ e ∈ (bfsExpand w h op c p ds q v).1,
        e.1 ∈ (bfsExpand w h op c p ds q v).2) ∧
      (∀ x ∈ (bfsExpand w h op c p ds q v).2, x ∈ rect w h) ∧
      (∀ x ∈ (bfsExpand w h op c p ds q v).2,
        x ∈ v ∨ ∃ e ∈ (bfsExpand w h op c p ds q v).1, e.1 = x) ∧
      (∀ d ∈ ds, (c.1 + d.1, c.2 + d.2) ∈ op →
        inGrid w h (c.1 + d.1, c.2 + d.2) →
        (c.1 + d.1, c.2 + d.2) ∈ (bfsExpand w h op c p ds q v).2) ∧
      closedCount w h (bfsExpand w h op c p ds q v).2 +
          (bfsExpand w h op c p ds q v).1.length =
        closedCount w h v + q.length := by
  intro ds
  induction ds with
  | nil =>
    intro q v ha hrect
    exact ⟨fun e he => he, fun x hx => hx, ha, hrect,
      fun x hx => Or.inl hx, by simp, rfl⟩
  | cons d rest ih =>
    intro q v ha hrect
    rw [bfsExpand]
    simp only []
    split
    case isTrue hcond =>
      obtain ⟨hb1, hb2, hb3, hb4, hop, hnv⟩ := hcond
      have hnrect : (c.1 + d.1, c.2 + d.2) ∈ rect w h :=
        mem_rect_iff.mpr ⟨hb1, hb2, hb3, hb4⟩
      have ha' : ∀ e ∈ q ++ [((c.1 + d.1, c.2 + d.2), p ++ [(c.1 + d.1, c.2 + d.2)])],
          e.1 ∈ (c.1 + d.1, c.2 + d.2) :: v := by
        intro e he
        rcases List.mem_append.mp he with he' | he'
        · exact List.mem_cons_of_mem _ (ha e he')
        · rw [List.mem_singleton] at he'
          subst he'
          exact List.mem_cons_self _ _
      have hrect' : ∀ x ∈ (c.1 + d.1, c.2 + d.2) :: v, x ∈ rect w h := by
        intro x hx
        rcases List.mem_cons.mp hx with rfl | hx'
        · exact hnrect
        · exact hrect x hx'
      obtain ⟨iE1, iE2, iE3, iE4, iE5, iE6, iE7⟩ := ih _ _ ha' hrect'
      refine ⟨?_, ?_, iE3, iE4, ?_, ?_, ?_⟩
      · intro e he
        exact iE1 e (List.mem_append.mpr (Or.inl he))
      · intro x hx
        exact iE2 x (List.mem_cons_of_mem _ hx)
      · intro x hx
        rcases iE5 x hx with hx' | hx'
        · rcases List.mem_cons.mp hx' with rfl | hx''
          · refine Or.inr ⟨((c.1 + d.1, c.2 + d.2), p ++ [(c.1 + d.1, c.2 + d.2)]), ?_, rfl⟩
            exact iE1 _ (List.mem_append.mpr (Or.inr (List.mem_singleton.mpr rfl)))
          · exact Or.inl hx''
        · exact Or.inr hx'
      · intro d' hd' hop' hgrid'
        rcases List.mem_cons.mp hd' with rfl | hd''
        · exact iE2 _ (List.mem_cons_self _ _)
        · exact iE6 d' hd'' hop' hgrid'
      · rw [iE7, List.length_append]
        have hcc := closedCount_cons_eq hnrect hnv
        simp only [List.length_singleton]
        omega
    case isFalse hcond =>
      obtain ⟨iE1, iE2, iE3, iE4, iE5, iE6, iE7⟩ := ih _ _ ha hrect
      refine ⟨iE1, iE2, iE3, iE4, iE5, ?_, iE7⟩
      intro d' hd' hop' hgrid'
      rcases List.mem_cons.mp hd' with rfl | hd''
      · have hmem : (c.1 + d'.1, c.2 + d'.2) ∈ v := by
          by_contra hnm
          exact hcond ⟨hgrid'.1, hgrid'.2.1, hgrid'.2.2.1, hgrid'.2.2.2, hop', hnm⟩
        exact iE2 _ hmem
      · exact iE6 d' hd'' hop' hgrid'

/-- Completeness of the (fueled) BFS loop: if some visited cell reaches the
exit through open cells, the loop returns a path. -/
theorem bfsLoop_complete (w h : ℤ) (op : List (ℤ × ℤ)) (dirs : List (ℤ × ℤ))
    (hdirs : ∀ d : ℤ × ℤ, d ∈ dirs ↔ d ∈ bfsDirs)
    (hopRect : ∀ x ∈ op, x ∈ rect w h) :
    ∀ (fuel : ℕ) (q : List ((ℤ × ℤ) × List (ℤ × ℤ))) (v : List (ℤ × ℤ)),
      (∀ e ∈ q, e.1 ∈ v) →
      (∀ x ∈ v, x ∈ rect w h) →
      (∀ u ∈ v, (∀ e ∈ q, e.1 ≠ u) →
        ∀ y : ℤ × ℤ, gridAdj u y → y ∈ op → y ∈ v) →
      ((w - 2, h - 1) ∈ v → ∃ e ∈ q, e.1 = (w - 2, h - 1)) →
      (∃ s ∈ v, Reach op s (w - 2, h - 1)) →
      closedCount w h v + q.length + 1 ≤ fuel →
      ∃ sp, bfsLoop w h op dirs fuel q v = some sp := by
  intro fuel
  induction fuel with
  | zero =>
    intro q v _ _ _ _ _ hfuel
    omega
  | succ fuel ih =>
    intro q v ha hrect hb hd hreach hfuel
    match q with
    | [] =>
      exfalso
      obtain ⟨s, hs, hr⟩ := hreach
      have hclosure : ∀ z : ℤ × ℤ, Reach op s z → z ∈ v := by
        intro z hz
        induction hz with
        | refl => exact hs
        | tail hab hstep ihz =>
          exact hb _ ihz (fun e he => absurd he (List.not_mem_nil e)) _
            hstep.2.2 hstep.2.1
      obtain ⟨e, he, -⟩ := hd (hclosure _ hr)
      exact absurd he (List.not_mem_nil e)
    | (c, p) :: rest =>
      rw [bfsLoop]
      by_cases hc : c = (w - 2, h - 1)
      · rw [if_pos hc]
        exact ⟨p, rfl⟩
      · rw [if_neg hc]
        show ∃ sp, bfsLoop w h op dirs fuel
          (bfsExpand w h op c p dirs rest v).1
          (bfsExpand w h op c p dirs rest v).2 = some sp
        have harest : ∀ e ∈ rest, e.1 ∈ v := fun e he =>
          ha e (List.mem_cons_of_mem _ he)
        obtain ⟨hE1, hE2, hE3, hE4, hE5, hE6, hE7⟩ :=
          bfsExpand_spec w h op c p dirs rest v harest hrect
        apply ih
        · exact hE3
        · exact hE4
        · intro u hu hnoq y hadj hyop
          rcases hE5 u hu with huv | ⟨e, he, he1⟩
          · by_cases huc : u = c
            · subst huc
              have hygrid : inGrid w h y := mem_rect_iff.mp (hopRect y hyop)
              obtain ⟨dy, hdy, hyeq⟩ := adj_exists_bfsDir hadj
              subst hyeq
              exact hE6 dy ((hdirs dy).mpr hdy) hyop hygrid
            · have hold : ∀ e ∈ (c, p) :: rest, e.1 ≠ u := by
                intro e he
                rcases List.mem_cons.mp he with rfl | he'
                · exact fun heq => huc heq.symm
                · exact fun heq => hnoq e (hE1 e he') heq
              exact hE2 _ (hb u huv hold y hadj hyop)
          · exact absurd he1 (hnoq e he)
        · intro hendv
          rcases hE5 _ hendv with hv' | hq'
          · obtain ⟨e, he, he1⟩ := hd hv'
            rcases List.mem_cons.mp he with rfl | he'
            · exact absurd he1 hc
            · exact ⟨e, hE1 e he', he1⟩
          · exact hq'
        · obtain ⟨s, hs, hr⟩ := hreach
          exact ⟨s, hE2 s hs, hr⟩
        · rw [List.length_cons] at hfuel
          omega

/-! ## Uniqueness of simple paths in a rooted-forest open set -/

/-- A simple path from a vertex to itself is the singleton. -/
theorem pathList_self {op : List (ℤ × ℤ)} {a : ℤ × ℤ} {p : List (ℤ × ℤ)}
    (hp : IsPathList op a a p) : p = [a] := by
  obtain ⟨hne, hhead, hlast, hchain, hmem, hnodup⟩ := hp
  match p, hne with
  | [x], _ =>
    simp only [List.head?_cons, Option.some_inj] at hhead
    rw [hhead]
  | x :: y :: t, _ =>
    exfalso
    simp only [List.head?_cons, Option.some_inj] at hhead
    subst hhead
    rw [List.getLast?_cons_cons] at hlast
    have hmem' : x ∈ y :: t := List.mem_of_getLast?_eq_some hlast
    rw [List.nodup_cons] at hnodup
    exact hnodup.1 hmem'

/-- Reversal of a simple path. -/
theorem pathList_reverse {op : List (ℤ × ℤ)} {a b : ℤ × ℤ}
    {p : List (ℤ × ℤ)} (hp : IsPathList op a b p) :
    IsPathList op b a p.reverse := by
  obtain ⟨hne, hhead, hlast, hchain, hmem, hnodup⟩ := hp
  refine ⟨by simpa using hne, ?_, ?_, ?_, ?_, ?_⟩
  · rw [List.head?_reverse]
    exact hlast
  · rw [← List.head?_reverse, List.reverse_reverse]
    exact hhead
  · rw [List.chain'_reverse]
    exact List.Chain'.imp (fun x y hxy => gridAdj_symm hxy) hchain
  · intro x hx
    exact hmem x (List.mem_reverse.mp hx)
  · exact List.nodup_reverse.mpr hnodup

/-- Along a run of child-steps the rank strictly increases. -/
theorem up_run {op : List (ℤ × ℤ)} {root : ℤ × ℤ} {par : ℤ × ℤ → ℤ × ℤ}
    {rk : ℤ × ℤ → ℕ} (hinv : ParInv op root par rk) :
    ∀ (t : List (ℤ × ℤ)) (x y : ℤ × ℤ), y ≠ root → par y = x →
      List.Chain' gridAdj (x :: y :: t) → (x :: y :: t).Nodup →
      (∀ z ∈ x :: y :: t, z ∈ op) →
      ∀ z : ℤ × ℤ, (y :: t).getLast? = some z → rk x < rk z := by
  intro t
  induction t with
  | nil =>
    intro x y hyroot hpary _ _ hmem z hz
    simp only [List.getLast?_singleton, Option.some_inj] at hz
    have hlt := (hinv.1 y (hmem y (by simp)) hyroot).2.2
    rw [hpary] at hlt
    rw [← hz]
    exact hlt
  | cons u t' ih =>
    intro x y hyroot hpary hchain hnodup hmem z hz
    rw [List.getLast?_cons_cons] at hz
    have hadj_yu : gridAdj y u :=
      (List.chain'_cons.mp (List.chain'_cons.mp hchain).2).1
    have hyop : y ∈ op := hmem y (by simp)
    have huop : u ∈ op := hmem u (by simp)
    rcases hinv.2 y hyop u huop hadj_yu with ⟨hyr, hpyu⟩ | ⟨hur, hpuy⟩
    · exfalso
      have hux : u = x := hpyu.symm.trans hpary
      rw [List.nodup_cons] at hnodup
      exact hnodup.1 (hux ▸ (by simp : u ∈ y :: u :: t'))
    · have hbase : rk x < rk y := by
        have hlt := (hinv.1 y hyop hyroot).2.2
        rw [hpary] at hlt
        exact hlt
      have hrec := ih y u hur hpuy (List.chain'_cons.mp hchain).2
        (List.nodup_cons.mp hnodup).2
        (fun z' hz' => hmem z' (List.mem_cons_of_mem _ hz')) z hz
      omega

/-- A simple path towards an endpoint of smaller-or-equal rank starts with
a step to the parent. -/
theorem first_step_down {op : List (ℤ × ℤ)} {root : ℤ × ℤ}
    {par : ℤ × ℤ → ℤ × ℤ} {rk : ℤ × ℤ → ℕ} (hinv : ParInv op root par rk)
    {a b : ℤ × ℤ} {p : List (ℤ × ℤ)} (hab : a ≠ b) (hrk : rk b ≤ rk a)
    (hp : IsPathList op a b p) :
    ∃ t, p = a :: t ∧ a ≠ root ∧ a ∈ op ∧ IsPathList op (par a) b t := by
  obtain ⟨hne, hhead, hlast, hchain, hmem, hnodup⟩ := hp
  match p, hne with
  | [x], _ =>
    exfalso
    simp only [List.head?_cons, Option.some_inj] at hhead
    simp only [List.getLast?_singleton, Option.some_inj] at hlast
    exact hab (hhead.symm.trans hlast)
  | x :: y :: t, _ =>
    simp only [List.head?_cons, Option.some_inj] at hhead
    subst hhead
    rw [List.getLast?_cons_cons] at hlast
    have hadj : gridAdj x y := (List.chain'_cons.mp hchain).1
    have hxop : x ∈ op := hmem x (by simp)
    have hyop : y ∈ op := hmem y (by simp)
    rcases hinv.2 x hxop y hyop hadj with ⟨hxr, hpxy⟩ | ⟨hyr, hpyx⟩
    · refine ⟨y :: t, rfl, hxr, hxop, ?_⟩
      rw [hpxy]
      exact ⟨by simp, by simp, hlast, (List.chain'_cons.mp hchain).2,
        fun z hz => hmem z (List.mem_cons_of_mem _ hz),
        (List.nodup_cons.mp hnodup).2⟩
    · exfalso
      have hlt := up_run hinv t x y hyr hpyx hchain hnodup hmem b hlast
      omega

/-- In an open set carrying a rooted parent structure whose parent links
exhaust all adjacencies, simple paths between two cells are unique. -/
theorem parInv_path_unique {op : List (ℤ × ℤ)} {root : ℤ × ℤ}
    {par : ℤ × ℤ → ℤ × ℤ} {rk : ℤ × ℤ → ℕ} (hinv : ParInv op root par rk) :
    ∀ (a b : ℤ × ℤ) (p q : List (ℤ × ℤ)),
      IsPathList op a b p → IsPathList op a b q → p = q := by
  have key : ∀ N : ℕ, ∀ (a b : ℤ × ℤ) (p q : List (ℤ × ℤ)),
      rk a + rk b ≤ N →
      IsPathList op a b p → IsPathList op a b q → p = q := by
    intro N
    induction N with
    | zero =>
      intro a b p q hN hp hq
      by_cases hab : a = b
      · subst hab
        rw [pathList_self hp, pathList_self hq]
      · exfalso
        by_cases hrk : rk b ≤ rk a
        · obtain ⟨t, -, haroot, haop, -⟩ := first_step_down hinv hab hrk hp
          have := (hinv.1 a haop haroot).2.2
          omega
        · obtain ⟨t, -, hbroot, hbop, -⟩ := first_step_down hinv
            (fun heq => hab heq.symm) (by omega) (pathList_reverse hp)
          have := (hinv.1 b hbop hbroot).2.2
          omega
    | succ N ih =>
      intro a b p q hN hp hq
      by_cases hab : a = b
      · subst hab
        rw [pathList_self hp, pathList_self hq]
      · by_cases hrk : rk b ≤ rk a
        · obtain ⟨tp, hpe, haroot, haop, hpt⟩ := first_step_down hinv hab hrk hp
          obtain ⟨tq, hqe, -, -, hqt⟩ := first_step_down hinv hab hrk hq
          have hlt := (hinv.1 a haop haroot).2.2
          have heq := ih (par a) b tp tq (by omega) hpt hqt
          rw [hpe, hqe, heq]
        · obtain ⟨tp, hpe, hbroot, hbop, hpt⟩ := first_step_down hinv
            (fun heq => hab heq.symm) (by omega) (pathList_reverse hp)
          obtain ⟨tq, hqe, -, -, hqt⟩ := first_step_down hinv
            (fun heq => hab heq.symm) (by omega) (pathList_reverse hq)
          have hlt := (hinv.1 b hbop hbroot).2.2
          have heq := ih (par b) a tp tq (by omega) hpt hqt
          have hrev : p.reverse = q.reverse := by
            rw [hpe, hqe, heq]
          exact List.reverse_injective hrev
  exact fun a b p q hp hq => key (rk a + rk b) a b p q le_rfl hp hq

/-! ## The solver on a generated open set -/

/-- On any open set that lies in the grid, contains the entry, and
connects the entry to the exit, the solver (with any neighbour order
equal to the canonical one as a set) returns a path, and that path is a
simple path from entry to exit. -/
theorem findSolutionWith_spec (w h : ℤ) (hw3 : 3 ≤ w) (hh3 : 3 ≤ h)
    (op : List (ℤ × ℤ)) (hrect : ∀ x ∈ op, x ∈ rect w h)
    (hentry : ((1 : ℤ), (0 : ℤ)) ∈ op)
    (hreach : Reach op (1, 0) (w - 2, h - 1))
    (dirs : List (ℤ × ℤ)) (hdirs : ∀ d : ℤ × ℤ, d ∈ dirs ↔ d ∈ bfsDirs) :
    ∃ sp, findSolutionWith w h op dirs = some sp ∧
      IsPathList op (1, 0) (w - 2, h - 1) sp := by
  have hentry_rect : ((1 : ℤ), (0 : ℤ)) ∈ rect w h := by
    rw [mem_rect_iff]
    exact ⟨by norm_num, by norm_num; omega, by norm_num, by norm_num; omega⟩
  have hsome : ∃ sp, bfsLoop w h op dirs (mazeFuel w h)
      [((1, 0), [(1, 0)])] [(1, 0)] = some sp := by
    apply bfsLoop_complete w h op dirs hdirs hrect (mazeFuel w h)
    · intro e he
      rw [List.mem_singleton] at he
      subst he
      exact List.mem_cons_self _ _
    · intro x hx
      rw [List.mem_singleton] at hx
      subst hx
      exact hentry_rect
    · intro u hu hnoq y _ _
      rw [List.mem_singleton] at hu
      subst hu
      exact absurd rfl (hnoq ((1, 0), [(1, 0)]) (List.mem_cons_self _ _))
    · intro hmem
      rw [List.mem_singleton] at hmem
      exfalso
      rw [Prod.ext_iff] at hmem
      simp only [] at hmem
      omega
    · exact ⟨(1, 0), List.mem_cons_self _ _, hreach⟩
    · have hcc := closedCount_cons_eq hentry_rect (List.not_mem_nil (1, 0))
      rw [closedCount_nil, rect_card w h (by omega) (by omega)] at hcc
      unfold mazeFuel
      simp only [List.length_singleton]
      omega
  obtain ⟨sp, hsp⟩ := hsome
  have hunit : UnitSteps dirs := by
    intro d hd
    have hd' := (hdirs d).mp hd
    simp only [bfsDirs, List.mem_cons, List.mem_singleton] at hd'
    rcases hd' with rfl | rfl | rfl | rfl | hfalse
    · rfl
    · rfl
    · rfl
    · rfl
    · cases hfalse
  have hinit : GoodQueue op (1, 0) [((1, 0), [(1, 0)])] [(1, 0)] := by
    intro e he
    rw [List.mem_singleton] at he
    subst he
    refine ⟨⟨by simp, by simp, by simp, List.chain'_singleton _, ?_,
      List.nodup_singleton _⟩, fun x hx => hx⟩
    intro x hx
    rw [List.mem_singleton] at hx
    subst hx
    exact hentry
  exact ⟨sp, hsp,
    bfsLoop_valid w h op (1, 0) dirs hunit (mazeFuel w h) _ _ sp hinit hsp⟩

/-! ## C1: generation never fails -/

/-- **C1.** For every odd `width`, `height ≥ 3` and every seed, `generate`
completes without the generation-failure error: the carve spans the room
lattice, the forced entry and exit attach to it, so the BFS always reaches
the exit and the `RuntimeError` branch is unreachable. -/
theorem claim_C1_generation_never_fails (w h : ℤ) (hw : w % 2 = 1)
    (hh : h % 2 = 1) (hw3 : 3 ≤ w) (hh3 : 3 ≤ h)
    (perms : ℕ → List (ℤ × ℤ)) (hp : ShufflesOf perms)
    (m p : List (ℤ × ℤ)) :
    ∃ g', MazeGenerator.generate ⟨w, h, m, p⟩ perms = .ok g' := by
  obtain ⟨hc11, hparity, hrooms, par, rk, hparinv⟩ :=
    carve_top w h perms hw hh hw3 hh3 hp
  obtain ⟨hrectG, hreachG, par', rk', hparinv'⟩ :=
    extend_structure w h hw hh hw3 hh3 _ hc11 hparity hrooms par rk hparinv
  have hentryG : ((1 : ℤ), (0 : ℤ)) ∈ ((1, 0) :: (w - 2, h - 1) ::
      (carveCell w h perms (mazeFuel w h) (1, 1) ⟨[], 0⟩).op) :=
    List.mem_cons_self _ _
  obtain ⟨sp, hsp, -⟩ := findSolutionWith_spec w h hw3 hh3 _ hrectG hentryG
    hreachG bfsDirs (fun d => Iff.rfl)
  refine ⟨⟨w, h, (1, 0) :: (w - 2, h - 1) ::
    (carveCell w h perms (mazeFuel w h) (1, 1) ⟨[], 0⟩).op, sp⟩, ?_⟩
  unfold MazeGenerator.generate
  simp only []
  rw [show findSolution w h ((1, 0) :: (w - 2, h - 1) ::
      (carveCell w h perms (mazeFuel w h) (1, 1) ⟨[], 0⟩).op) =
      some sp from hsp]

/-- Witness for C1 at the smallest size and the identity shuffle stream. -/
theorem claim_C1_witness :
    ∃ g', MazeGenerator.generate ⟨3, 3, [], []⟩ (fun _ => carveDirs) = .ok g' :=
  claim_C1_generation_never_fails 3 3 (by decide) (by decide) (by decide)
    (by decide) (fun _ => carveDirs) (fun _ => List.Perm.refl _) [] []

/-! ## C2: one simple path; BFS order irrelevant -/

/-- **C2.** After generation the open cells contain every room (the carve
spans the lattice), there is exactly one simple path between entry and
exit, and the solver returns that path for *any* neighbour-exploration
order with the same four directions — so the returned path and its length
do not depend on the BFS neighbour order. -/
theorem claim_C2_unique_solution_path (w h : ℤ) (hw : w % 2 = 1)
    (hh : h % 2 = 1) (hw3 : 3 ≤ w) (hh3 : 3 ≤ h)
    (perms : ℕ → List (ℤ × ℤ)) (hp : ShufflesOf perms)
    (m p : List (ℤ × ℤ)) (g' : MazeGenerator)
    (hgen : MazeGenerator.generate ⟨w, h, m, p⟩ perms = .ok g') :
    (∀ r : ℤ × ℤ, IsRoomCell w h r → r ∈ g'.maze) ∧
    (∃! sp, IsPathList g'.maze entryCell (exitCell w h) sp) ∧
    (∀ dirs : List (ℤ × ℤ), (∀ d : ℤ × ℤ, d ∈ dirs ↔ d ∈ bfsDirs) →
      findSolutionWith w h g'.maze dirs = some g'.solutionPath) := by
  obtain ⟨hc11, hparity, hrooms, par, rk, hparinv⟩ :=
    carve_top w h perms hw hh hw3 hh3 hp
  obtain ⟨hrectG, hreachG, par', rk', hparinv'⟩ :=
    extend_structure w h hw hh hw3 hh3 _ hc11 hparity hrooms par rk hparinv
  have hentryG : ((1 : ℤ), (0 : ℤ)) ∈ ((1, 0) :: (w - 2, h - 1) ::
      (carveCell w h perms (mazeFuel w h) (1, 1) ⟨[], 0⟩).op) :=
    List.mem_cons_self _ _
  -- extract the generated open set and path
  unfold MazeGenerator.generate at hgen
  simp only [] at hgen
  split at hgen
  case h_2 => exact absurd hgen (by simp)
  case h_1 sp0 hfs =>
    cases hgen
    have huniq := parInv_path_unique hparinv'
    obtain ⟨sp1, hsp1, hvalid1⟩ := findSolutionWith_spec w h hw3 hh3 _ hrectG
      hentryG hreachG bfsDirs (fun d => Iff.rfl)
    have hsp0 : sp1 = sp0 := by
      have := hfs
      unfold findSolution at this
      rw [hsp1] at this
      exact Option.some_inj.mp this
    subst hsp0
    refine ⟨?_, ⟨sp1, hvalid1, fun y hy => huniq _ _ y sp1 hy hvalid1⟩, ?_⟩
    · intro r hr
      exact List.mem_cons_of_mem _ (List.mem_cons_of_mem _ (hrooms r hr))
    · intro dirs hdirs
      obtain ⟨sp2, hsp2, hvalid2⟩ := findSolutionWith_spec w h hw3 hh3 _ hrectG
        hentryG hreachG dirs hdirs
      rw [hsp2, huniq _ _ sp2 sp1 hvalid2 hvalid1]

/-- Witness for C2 at the concrete 3×3 maze. -/
theorem claim_C2_witness :
    (∀ r : ℤ × ℤ, IsRoomCell 3 3 r →
      r ∈ (⟨3, 3, [(1, 0), (1, 2), (1, 1)],
        [(1, 0), (1, 1), (1, 2)]⟩ : MazeGenerator).maze) ∧
    (∃! sp, IsPathList [(1, 0), (1, 2), (1, 1)] entryCell (exitCell 3 3) sp) ∧
    (∀ dirs : List (ℤ × ℤ), (∀ d : ℤ × ℤ, d ∈ dirs ↔ d ∈ bfsDirs) →
      findSolutionWith 3 3 [(1, 0), (1, 2), (1, 1)] dirs =
        some [(1, 0), (1, 1), (1, 2)]) :=
  claim_C2_unique_solution_path 3 3 (by decide) (by decide) (by decide)
    (by decide) (fun _ => carveDirs) (fun _ => List.Perm.refl _) [] []
    ⟨3, 3, [(1, 0), (1, 2), (1, 1)], [(1, 0), (1, 1), (1, 2)]⟩ (by decide)

/-! ## C6 (amended): parity of carved cells -/

/-- Every wall-between-rooms cell really lies between two rooms. -/
theorem mid_between {w h : ℤ} {m : ℤ × ℤ} (hm : IsMidCell w h m) :
    ∃ a b : ℤ × ℤ, IsRoomCell w h a ∧ IsRoomCell w h b ∧ a ≠ b ∧
      gridAdj a m ∧ gridAdj m b := by
  rcases hm with ⟨h1, h2, h3, h4, h5, h6⟩ | ⟨h1, h2, h3, h4, h5, h6⟩
  · refine ⟨(m.1 - 1, m.2), (m.1 + 1, m.2), ?_, ?_, ?_, ?_, ?_⟩
    · unfold IsRoomCell
      refine ⟨?_, ?_, ?_, ?_, ?_, ?_⟩ <;> (simp only []; omega)
    · unfold IsRoomCell
      refine ⟨?_, ?_, ?_, ?_, ?_, ?_⟩ <;> (simp only []; omega)
    · intro heq
      rw [Prod.ext_iff] at heq
      simp only [] at heq
      omega
    · unfold gridAdj
      simp only []
      omega
    · unfold gridAdj
      simp only []
      omega
  · refine ⟨(m.1, m.2 - 1), (m.1, m.2 + 1), ?_, ?_, ?_, ?_, ?_⟩
    · unfold IsRoomCell
      refine ⟨?_, ?_, ?_, ?_, ?_, ?_⟩ <;> (simp only []; omega)
    · unfold IsRoomCell
      refine ⟨?_, ?_, ?_, ?_, ?_, ?_⟩ <;> (simp only []; omega)
    · intro heq
      rw [Prod.ext_iff] at heq
      simp only [] at heq
      omega
    · unfold gridAdj
      simp only []
      omega
    · unfold gridAdj
      simp only []
      omega

/-- **C6 (amended).** Every cell the recursive carve opens is either a
room with both coordinates *odd*, or the single intervening wall cell
between two such rooms (both of which end up open). -/
theorem claim_C6_amended (w h : ℤ) (hw : w % 2 = 1) (hh : h % 2 = 1)
    (hw3 : 3 ≤ w) (hh3 : 3 ≤ h) (perms : ℕ → List (ℤ × ℤ))
    (hp : ShufflesOf perms) :
    ∀ x ∈ (carveCell w h perms (mazeFuel w h) (1, 1) ⟨[], 0⟩).op,
      (x.1 % 2 = 1 ∧ x.2 % 2 = 1 ∧ IsRoomCell w h x) ∨
      (IsMidCell w h x ∧ ∃ a b : ℤ × ℤ, IsRoomCell w h a ∧ IsRoomCell w h b ∧
        a ≠ b ∧ gridAdj a x ∧ gridAdj x b ∧
        a ∈ (carveCell w h perms (mazeFuel w h) (1, 1) ⟨[], 0⟩).op ∧
        b ∈ (carveCell w h perms (mazeFuel w h) (1, 1) ⟨[], 0⟩).op) := by
  obtain ⟨hc11, hparity, hrooms, -⟩ := carve_top w h perms hw hh hw3 hh3 hp
  intro x hx
  rcases hparity x hx with hroom | hmid
  · exact Or.inl ⟨hroom.1, hroom.2.1, hroom⟩
  · obtain ⟨a, b, ha, hb, hab, hax, hxb⟩ := mid_between hmid
    exact Or.inr ⟨hmid, a, b, ha, hb, hab, hax, hxb, hrooms a ha, hrooms b hb⟩

/-- Witness for the amended C6 at the 3×3 carve. -/
theorem claim_C6_amended_witness :
    ((1 : ℤ), (1 : ℤ)) ∈ (carveCell 3 3 (fun _ => carveDirs) (mazeFuel 3 3)
      (1, 1) ⟨[], 0⟩).op ∧
    ((((1 : ℤ), (1 : ℤ)).1 % 2 = 1 ∧ ((1 : ℤ), (1 : ℤ)).2 % 2 = 1 ∧
        IsRoomCell 3 3 (1, 1)) ∨
      (IsMidCell 3 3 (1, 1) ∧ ∃ a b : ℤ × ℤ, IsRoomCell 3 3 a ∧
        IsRoomCell 3 3 b ∧ a ≠ b ∧ gridAdj a (1, 1) ∧ gridAdj (1, 1) b ∧
        a ∈ (carveCell 3 3 (fun _ => carveDirs) (mazeFuel 3 3) (1, 1) ⟨[], 0⟩).op ∧
        b ∈ (carveCell 3 3 (fun _ => carveDirs) (mazeFuel 3 3) (1, 1) ⟨[], 0⟩).op)) :=
  ⟨by decide,
    claim_C6_amended 3 3 (by decide) (by decide) (by decide) (by decide)
      (fun _ => carveDirs) (fun _ => List.Perm.refl _) (1, 1) (by decide)⟩

end Meshmaker
